import Mathlib

/-!
Verification of the dependency analyzer of this repository
(`src/dependency_analyzer/topo_sort.py` and `src/dependency_analyzer/ast_parser.py`).

Shallow-embedding conventions:
* a Python `dict` is an association list in insertion order (first binding wins
  on lookup, as for a dict whose keys are unique);
* a Python `set` is a `List` used for its membership; Python set iteration order
  is unspecified, so theorems quantify over the stored order;
* Tarjan's explicit stack is stored top-first (Python appends and pops at the
  end of its list, so our head is Python's last element);
* machine integers do not overflow here (counters are small), so `Nat` is used.
-/

set_option maxHeartbeats 1000000

/-! ## Generic helpers: string sorting and association lists -/

instance {ε α : Type} [DecidableEq ε] [DecidableEq α] : DecidableEq (Except ε α) :=
  fun x y =>
    match x, y with
    | .ok a, .ok b =>
      if h : a = b then isTrue (by rw [h])
      else isFalse (fun hc => h (by injection hc))
    | .error a, .error b =>
      if h : a = b then isTrue (by rw [h])
      else isFalse (fun hc => h (by injection hc))
    | .ok _, .error _ => isFalse (fun hc => by injection hc)
    | .error _, .ok _ => isFalse (fun hc => by injection hc)

/-- Lexicographic comparison of char lists by code point (how Python compares
strings). -/
def charListLe : List Char → List Char → Bool
  | [], _ => true
  | _ :: _, [] => false
  | a :: as, b :: bs =>
    if a.toNat < b.toNat then true
    else if b.toNat < a.toNat then false
    else charListLe as bs

/-- Python's `<=` on strings. -/
def strLe (a b : String) : Bool := charListLe a.toList b.toList

/-- Python's `sorted` on a list of strings (ascending lexicographic order). -/
def sortStr (l : List String) : List String :=
  l.insertionSort (fun a b => strLe a b = true)

/-- Python's `s.split('.')` (module-id splitting; every separator splits,
empty parts are kept). -/
def pySplitDot (s : String) : List String :=
  let rec go : List Char → List Char → List String
    | [], cur => [String.mk cur.reverse]
    | c :: rest, cur =>
      if c = '.' then String.mk cur.reverse :: go rest []
      else go rest (c :: cur)
  go s.toList []

/-- Dependency graph: `Dict[str, Set[str]]` as an association list. -/
abbrev Graph := List (String × List String)

/-- `graph.get(node, set())`: the dependency set of `v`, empty when absent. -/
def glookup (g : Graph) (v : String) : List String :=
  ((g.find? (fun p => p.1 == v)).map Prod.snd).getD []

/-- The keys of the graph (its node ids, in insertion order). -/
def keysOf (g : Graph) : List String := g.map Prod.fst

/-- All strings the graph mentions: keys plus every edge target (deduplicated). -/
def mentioned (g : Graph) : List String :=
  (keysOf g ++ g.foldr (fun (p : String × List String) acc => p.2 ++ acc) []).dedup

/-- `v ∈ graph[u]`: a directed edge from `u` to its dependency `v`. -/
def edgeMem (g : Graph) (u v : String) : Prop := v ∈ glookup g u

instance (g : Graph) (u v : String) : Decidable (edgeMem g u v) := by
  unfold edgeMem; infer_instance

/-- Every edge target is itself a node of the graph. -/
def Closed (g : Graph) : Prop := ∀ p ∈ g, ∀ v ∈ p.2, v ∈ keysOf g

instance (g : Graph) : Decidable (Closed g) := by
  unfold Closed; infer_instance

/-- Nonempty directed path `u → … → v` (one or more edges) in the graph. -/
inductive PathP (g : Graph) : String → String → Prop where
  | single {u v : String} : edgeMem g u v → PathP g u v
  | cons {u w v : String} : edgeMem g u w → PathP g w v → PathP g u v

/-- The graph has no nonempty directed path from a node back to itself
(this includes the absence of self-loops, directed cycles of length one). -/
def Acyclic (g : Graph) : Prop := ∀ x : String, ¬ PathP g x x

/-- Assoc-list lookup for the `index` and `lowlink` dicts of Tarjan's algorithm. -/
def lget (m : List (String × Nat)) (k : String) : Option Nat :=
  (m.find? (fun p => p.1 == k)).map Prod.snd

/-! ## Embedding of `topo_sort.py` -/

/-- State of `detect_cycles` (Tarjan): `index_counter`, `index`, `lowlink`,
`onstack`, `stack` (top-first) and the accumulated `result`. -/
structure TJ where
  counter : Nat
  index : List (String × Nat)
  lowlink : List (String × Nat)
  onstack : List String
  stack : List String
  result : List (List String)
deriving Repr, DecidableEq

def TJ.init : TJ := ⟨0, [], [], [], [], []⟩

/-- The pop loop at the end of `strongconnect`: pop until (and including) `v`.
Returns the scc in pop order together with the remaining stack. -/
def popScc (stack : List String) (v : String) : List String × List String :=
  match stack with
  | [] => ([], [])
  | x :: rest =>
    if x == v then ([x], rest)
    else
      let (scc, rem) := popScc rest v
      (x :: scc, rem)

/-- One step of the `for successor in graph.get(node, set())` loop of
`strongconnect`: `rec` is the recursive call at the smaller fuel. -/
def tjStep (rec : TJ → String → TJ) (v : String) (st : TJ) (w : String) : TJ :=
  if (lget st.index w).isNone then
    let str := rec st w
    { str with
      lowlink :=
        (v, min ((lget str.lowlink v).getD 0) ((lget str.lowlink w).getD 0))
          :: str.lowlink }
  else if w ∈ st.onstack then
    { st with
      lowlink :=
        (v, min ((lget st.lowlink v).getD 0) ((lget st.index w).getD 0))
          :: st.lowlink }
  else st

/-- The entry bookkeeping of `strongconnect`: assign the next index and
lowlink, advance the counter, and push `v` on the stack. -/
def tjPush (st0 : TJ) (v : String) : TJ :=
  { st0 with
    index := (v, st0.counter) :: st0.index
    lowlink := (v, st0.counter) :: st0.lowlink
    counter := st0.counter + 1
    stack := v :: st0.stack
    onstack := v :: st0.onstack }

/-- The exit of `strongconnect`: when `lowlink[v] == index[v]`, pop the scc
off the stack and record it when it has more than one member. -/
def tjPop (st2 : TJ) (v : String) : TJ :=
  if lget st2.lowlink v == lget st2.index v then
    let pr := popScc st2.stack v
    { st2 with
      stack := pr.2
      onstack := st2.onstack.filter (fun x => !(pr.1.contains x))
      result := if pr.1.length > 1 then st2.result ++ [pr.1] else st2.result }
  else st2

/-- `strongconnect` of `detect_cycles`: index and push the node, run the
successor loop, then pop its scc when it is a root.  The fuel only bounds
the recursion depth; it is never exhausted when it exceeds the number of
unindexed mentioned nodes (each nested call indexes a fresh node). -/
def strongconnect : Nat → Graph → TJ → String → TJ
  | 0, _, st, _ => st
  | fuel + 1, g, st0, v =>
    tjPop ((glookup g v).foldl (tjStep (strongconnect fuel g) v) (tjPush st0 v)) v

/-- Fuel that can never be exhausted: one more than the number of distinct
mentioned nodes (each nested `strongconnect` call indexes a fresh node). -/
def tarjanFuel (g : Graph) : Nat := (mentioned g).length + 1

/-- `detect_cycles(graph)`: Tarjan's algorithm; returns every strongly
connected component with more than one member, in discovery order. -/
def detect_cycles (g : Graph) : List (List String) :=
  ((keysOf g).foldl
    (fun st v => if (lget st.index v).isNone then strongconnect (tarjanFuel g) g st v else st)
    TJ.init).result

/-- Remove the dependency `v` from node `u` (Python `new_graph[current].remove(next_node)`,
reached only when the membership test succeeded). -/
def gremove (g : Graph) (u v : String) : Graph :=
  g.map (fun p => if p.1 == u then (p.1, p.2.erase v) else p)

/-- Processing of one detected cycle in `resolve_cycles`: walk the member
sequence as consecutive pairs, remove the first pair whose edge is still
present, then stop.  (When `current` is not a key, Python's
`next_node in new_graph[current]` would raise `KeyError`; our total lookup
returns the empty set there instead.  The case is unreachable from
`detect_cycles` output, whose multi-member sccs consist of nodes with
outgoing edges, i.e. keys.) -/
def breakCycle (g : Graph) (cycle : List String) : Graph :=
  match (cycle.zip cycle.tail).find? (fun pr => pr.2 ∈ glookup g pr.1) with
  | none => g
  | some pr => gremove g pr.1 pr.2

/-- `resolve_cycles(graph)`: detect the cycles once and remove at most one
edge per reported cycle, without re-running detection. -/
def resolve_cycles (g : Graph) : Graph :=
  let cycles := detect_cycles g
  if cycles.isEmpty then g
  else cycles.foldl breakCycle g

/-- `has_incoming_edge` of `dependency_first_dfs`: some node's dependency set
contains `n`. -/
def hasIncoming (g : Graph) (n : String) : Bool :=
  g.any (fun p => n ∈ p.2)

/-- The root nodes (no incoming edge), with the fallback to the first key when
none exists. -/
def rootsOr (g : Graph) : List String :=
  let roots := (keysOf g).filter (fun n => !(hasIncoming g n))
  if roots.isEmpty then (keysOf g).take 1 else roots

/-- The inner `dfs` of `dependency_first_dfs` on the state
`(visited, result)`; the fold is the `for dep in sorted(...)` loop, run
before the node itself is appended.  Fuel bounds the depth and is never
exhausted when it exceeds the number of unvisited mentioned nodes. -/
def dfsA : Nat → Graph → List String × List String → String → List String × List String
  | 0, _, s, _ => s
  | fuel + 1, g, s, node =>
    if node ∈ s.1 then s
    else
      let s1 := (sortStr (glookup g node)).foldl (dfsA fuel g) (node :: s.1, s.2)
      (s1.1, s1.2 ++ [node])

/-- Fuel sufficient for the traversal (one more than the number of distinct
mentioned nodes). -/
def dfsFuel (g : Graph) : Nat := (mentioned g).length + 1

/-- `dependency_first_dfs(graph)`: resolve cycles, pick the roots, run the
depth-first dependency-first traversal from each root in sorted order, then
sweep still-unvisited nodes in sorted key order when the output is short. -/
def dependency_first_dfs (g : Graph) : List String :=
  let ag := resolve_cycles g
  let s := (sortStr (rootsOr ag)).foldl (dfsA (dfsFuel ag) ag) ([], [])
  let s2 :=
    if s.2.length ≠ ag.length then
      (sortStr (keysOf ag)).foldl
        (fun st n => if n ∈ st.1 then st else dfsA (dfsFuel ag) ag st n) s
    else s
  s2.2

/-! ## Embedding of `ast_parser.py`

A small Python AST sufficient for the components the parser handles.
`funcDef` covers both `ast.FunctionDef` and `ast.AsyncFunctionDef` (the code
always treats them together).  `name` carries whether its context is `Load`.
Each definition node carries its position (`lineno`, `end_lineno`) and the
source text of its segment, modelling the data `ast` attaches to nodes. -/

inductive PyExpr where
  | name (id : String) (isLoad : Bool)
  | attr (value : PyExpr) (attrName : String)
  | call (func : PyExpr) (args : List PyExpr)
  | constStr (s : String)
  | constOther
deriving Repr

inductive PyStmt where
  | classDef (cname : String) (bases : List PyExpr) (body : List PyStmt)
      (lineno endLineno : Nat) (srcText : String)
  | funcDef (fname : String) (args : List String) (body : List PyStmt)
      (lineno endLineno : Nat) (srcText : String)
  | exprStmt (e : PyExpr)
  | assign (targets : List PyExpr) (value : PyExpr)
  | ifStmt (test : PyExpr) (body : List PyStmt)
  | passStmt
  | importStmt (names : List String)
  | importFrom (module : String) (names : List String)
deriving Repr

abbrev PyModule := List PyStmt

mutual

/-- Number of AST nodes of an expression (a fuel bound for visitors). -/
def exprCount : PyExpr → Nat
  | .name _ _ => 1
  | .constStr _ => 1
  | .constOther => 1
  | .attr v _ => 1 + exprCount v
  | .call f args => 1 + exprCount f + exprsCount args

def exprsCount : List PyExpr → Nat
  | [] => 0
  | e :: es => exprCount e + exprsCount es

/-- Number of AST nodes of a statement, nested expressions included. -/
def stmtCount : PyStmt → Nat
  | .classDef _ bases body _ _ _ => 1 + exprsCount bases + stmtsCount body
  | .funcDef _ _ body _ _ _ => 1 + stmtsCount body
  | .exprStmt e => 1 + exprCount e
  | .assign ts v => 1 + exprsCount ts + exprCount v
  | .ifStmt t body => 1 + exprCount t + stmtsCount body
  | .passStmt => 1
  | .importStmt _ => 1
  | .importFrom _ _ => 1

def stmtsCount : List PyStmt → Nat
  | [] => 0
  | s :: ss => stmtCount s + stmtsCount ss

end

/-- Models `BUILTIN_TYPES = {name for name in dir(builtins)}`: the fixed set
of CPython builtin names (listing the ones any theorem below can touch). -/
def BUILTIN_TYPES : List String :=
  ["print", "len", "range", "int", "str", "list", "dict", "set", "tuple",
   "bool", "float", "bytes", "type", "object", "super", "isinstance",
   "issubclass", "enumerate", "zip", "map", "filter", "sorted", "reversed",
   "min", "max", "sum", "abs", "round", "open", "getattr", "setattr",
   "hasattr", "repr", "hash", "id", "iter", "next", "vars", "dir",
   "Exception", "ValueError", "TypeError", "KeyError", "IndexError",
   "AttributeError", "RuntimeError", "StopIteration", "NotImplementedError",
   "None", "True", "False", "NotImplemented", "Ellipsis"]

def STANDARD_MODULES : List String :=
  ["abc", "argparse", "array", "asyncio", "base64", "collections", "copy",
   "csv", "datetime", "enum", "functools", "glob", "io", "itertools",
   "json", "logging", "math", "os", "pathlib", "random", "re", "shutil",
   "string", "sys", "time", "typing", "uuid", "warnings", "xml"]

def EXCLUDED_NAMES : List String := ["self", "cls"]

/-- `CodeComponent`; `node` and `source_code` are the fields that are never
serialized. -/
structure CodeComponent where
  id : String
  node : Option PyStmt
  component_type : String
  file_path : String
  relative_path : String
  depends_on : List String
  source_code : Option String
  start_line : Nat
  end_line : Nat
  has_docstring : Bool
  docstring : String
deriving Repr

/-- The record `CodeComponent.to_dict` produces (the JSON object written by
`save_dependency_graph`; JSON serialization of these scalar/list fields is
faithful, so the file contents are modelled by the record itself). -/
structure SerializedComponent where
  id : String
  component_type : String
  file_path : String
  relative_path : String
  depends_on : List String
  start_line : Nat
  end_line : Nat
  has_docstring : Bool
  docstring : String
deriving Repr, DecidableEq

def CodeComponent.to_dict (c : CodeComponent) : SerializedComponent :=
  { id := c.id
    component_type := c.component_type
    file_path := c.file_path
    relative_path := c.relative_path
    depends_on := c.depends_on
    start_line := c.start_line
    end_line := c.end_line
    has_docstring := c.has_docstring
    docstring := c.docstring }

/-- `CodeComponent.from_dict`: the AST node is not serialized;
`set(data.get('depends_on', []))` keeps each id once. -/
def CodeComponent.from_dict (d : SerializedComponent) : CodeComponent :=
  { id := d.id
    node := none
    component_type := d.component_type
    file_path := d.file_path
    relative_path := d.relative_path
    depends_on := d.depends_on.dedup
    source_code := none
    start_line := d.start_line
    end_line := d.end_line
    has_docstring := d.has_docstring
    docstring := d.docstring }

/-- `save_dependency_graph`: serialize every component (the JSON file holds
exactly this mapping). -/
def save_dependency_graph (components : List (String × CodeComponent)) :
    List (String × SerializedComponent) :=
  components.map (fun p => (p.1, p.2.to_dict))

/-- `load_dependency_graph`: rebuild the component table from the mapping. -/
def load_dependency_graph (serialized : List (String × SerializedComponent)) :
    List (String × CodeComponent) :=
  serialized.map (fun p => (p.1, CodeComponent.from_dict p.2))

/-- Python `set.add`: add the element when it is not a member. -/
def setAdd (s : List String) (x : String) : List String :=
  if x ∈ s then s else s ++ [x]

/-- Suffix test on char lists (both already reversed). -/
def revSuffix : List Char → List Char → Bool
  | [], _ => true
  | _ :: _, [] => false
  | a :: as, b :: bs => a == b && revSuffix as bs

/-- `_file_to_module_path`: strip a trailing `.py`, then replace the path
separator by a dot. -/
def file_to_module_path (file_path : String) : String :=
  let path :=
    if revSuffix ".py".toList.reverse file_path.toList.reverse
    then file_path.dropRight 3 else file_path
  String.mk (path.toList.map (fun c => if c = '/' then '.' else c))

/-- The scan `for item in node.body` of `_get_docstring`: the first bare
string-literal expression statement of the body. -/
def getDocstringScan : List PyStmt → String
  | [] => ""
  | .exprStmt (.constStr s) :: _ => s
  | _ :: rest => getDocstringScan rest

/-- `_get_docstring`: only function and class definitions are scanned. -/
def get_docstring (node : PyStmt) : String :=
  match node with
  | .funcDef _ _ body _ _ _ => getDocstringScan body
  | .classDef _ _ body _ _ _ => getDocstringScan body
  | _ => ""

/-- The `has_docstring` test of `_collect_components`: the first body
statement is a bare string literal. -/
def firstIsStr : List PyStmt → Bool
  | .exprStmt (.constStr _) :: _ => true
  | _ => false

/-- `_get_source_segment`: the source text of the node's line span (attached
to definition nodes in this embedding). -/
def get_source_segment (node : PyStmt) : String :=
  match node with
  | .classDef _ _ _ _ _ src => src
  | .funcDef _ _ _ _ _ src => src
  | _ => ""

/-! ### ImportCollector -/

/-- The two tables `ImportCollector` builds: `imports` (a set of module names
from `import m`) and `from_imports` (module -> imported names, from
`from m import n, …`).  The visitor recurses into every statement. -/
structure Imports where
  imports : List String
  from_imports : List (String × List String)
deriving Repr

/-- `if module not in self.from_imports: self.from_imports[module] = []`. -/
def fromImportsEnsure (fi : List (String × List String)) (module : String) :
    List (String × List String) :=
  if (fi.find? (fun p => p.1 == module)).isSome then fi else fi ++ [(module, [])]

/-- `self.from_imports[module].append(name)`. -/
def fromImportsAppend (fi : List (String × List String)) (module n : String) :
    List (String × List String) :=
  fi.map (fun p => if p.1 == module then (p.1, p.2 ++ [n]) else p)

/-- The visitor recursion of `ImportCollector` as a depth-first worklist
(children are pushed in front, giving the `generic_visit` pre-order).  The
fuel counts processed nodes and `sizeOf` bounds their number. -/
def collectImportsGo : Nat → Imports → List PyStmt → Imports
  | 0, acc, _ => acc
  | _ + 1, acc, [] => acc
  | fuel + 1, acc, s :: rest =>
    match s with
    | .importStmt names =>
      collectImportsGo fuel { acc with imports := names.foldl setAdd acc.imports } rest
    | .importFrom module names =>
      collectImportsGo fuel
        { acc with
          from_imports :=
            (names.filter (fun n => n != "*")).foldl
              (fun fi n => fromImportsAppend fi module n)
              (fromImportsEnsure acc.from_imports module) } rest
    | .classDef _ _ body _ _ _ => collectImportsGo fuel acc (body ++ rest)
    | .funcDef _ _ body _ _ _ => collectImportsGo fuel acc (body ++ rest)
    | .ifStmt _ body => collectImportsGo fuel acc (body ++ rest)
    | _ => collectImportsGo fuel acc rest

def collectImports (m : PyModule) : Imports :=
  collectImportsGo (stmtsCount m + 1) ⟨[], []⟩ m

/-! ### DependencyCollector -/

/-- The constructor arguments of `DependencyCollector`. -/
structure DepCtx where
  imports : List String
  from_imports : List (String × List String)
  current_module : String
  repo_modules : List String
deriving Repr

/-- Mutable state of the visitor: `dependencies` (a set) and
`local_variables` (a set; a function component's parameters are preloaded). -/
structure DepState where
  dependencies : List String
  local_variables : List String
deriving Repr

/-- `DependencyCollector._add_dependency`. -/
def addDependency (ctx : DepCtx) (st : DepState) (n : String) : DepState :=
  if n ∈ BUILTIN_TYPES then st
  else if n ∈ EXCLUDED_NAMES then st
  else if n ∈ st.local_variables then st
  else
    match ctx.from_imports.find? (fun p =>
        !(STANDARD_MODULES.contains p.1) && p.2.contains n
          && ctx.repo_modules.contains p.1) with
    | some p => { st with dependencies := setAdd st.dependencies (p.1 ++ "." ++ n) }
    | none =>
      { st with dependencies := setAdd st.dependencies (ctx.current_module ++ "." ++ n) }

/-- Flatten an attribute chain `root.a.b…` to its name parts; `none` when the
innermost value is not a bare name. -/
def flattenAttr : PyExpr → List String → Option (List String)
  | .attr v a, acc => flattenAttr v (a :: acc)
  | .name idn _, acc => some (idn :: acc)
  | _, _ => none

/-- `DependencyCollector._process_attribute`. -/
def processAttribute (ctx : DepCtx) (st : DepState) (e : PyExpr) : DepState :=
  match flattenAttr e [] with
  | none => st
  | some parts =>
    match parts with
    | [] => st
    | root :: restParts =>
      if root ∈ st.local_variables then st
      else if root ∈ EXCLUDED_NAMES then st
      else if root ∈ ctx.imports then
        if root ∈ STANDARD_MODULES then st
        else if root ∈ ctx.repo_modules then
          match restParts with
          | second :: _ => { st with dependencies := setAdd st.dependencies (root ++ "." ++ second) }
          | [] => st
        else st
      else if (ctx.from_imports.find? (fun p => p.1 == root)).isSome then
        if root ∈ STANDARD_MODULES then st
        else
          match restParts with
          | second :: _ =>
            if second ∈ ((ctx.from_imports.find? (fun p => p.1 == root)).map Prod.snd).getD []
            then { st with dependencies := setAdd st.dependencies (root ++ "." ++ second) }
            else st
          | [] => st
      else st

/-- A worklist item of the `DependencyCollector` traversal. -/
inductive VNode where
  | stm (s : PyStmt)
  | exp (e : PyExpr)
deriving Repr

def vnodeCount : VNode → Nat
  | .stm s => stmtCount s
  | .exp e => exprCount e

def vnodesCount : List VNode → Nat
  | [] => 0
  | n :: ns => vnodeCount n + vnodesCount ns

/-- The `DependencyCollector` visitor as a depth-first worklist: each node is
dispatched (`visit_Name`, `visit_Attribute`, `visit_Call`, `visit_ClassDef`,
`visit_Assign`), then its children are pushed in front, which reproduces the
`generic_visit` pre-order of `ast.NodeVisitor`.  Fuel counts processed nodes
and never runs out when it exceeds the total node count. -/
def visitGo (ctx : DepCtx) : Nat → DepState → List VNode → DepState
  | 0, st, _ => st
  | _ + 1, st, [] => st
  | fuel + 1, st, item :: rest =>
    match item with
    | .exp (.name idn isLoad) =>
      visitGo ctx fuel (if isLoad then addDependency ctx st idn else st) rest
    | .exp (.attr v a) =>
      visitGo ctx fuel (processAttribute ctx st (.attr v a)) (.exp v :: rest)
    | .exp (.call f args) =>
      let st1 :=
        match f with
        | .name idn _ => addDependency ctx st idn
        | .attr _ _ => processAttribute ctx st f
        | _ => st
      visitGo ctx fuel st1 (.exp f :: (args.map .exp ++ rest))
    | .exp (.constStr _) => visitGo ctx fuel st rest
    | .exp .constOther => visitGo ctx fuel st rest
    | .stm (.classDef _ bases body _ _ _) =>
      let st1 := bases.foldl (fun s b =>
        match b with
        | .name idn _ => addDependency ctx s idn
        | .attr _ _ => processAttribute ctx s b
        | _ => s) st
      visitGo ctx fuel st1 (bases.map .exp ++ (body.map .stm ++ rest))
    | .stm (.funcDef _ _ body _ _ _) => visitGo ctx fuel st (body.map .stm ++ rest)
    | .stm (.exprStmt e) => visitGo ctx fuel st (.exp e :: rest)
    | .stm (.assign targets value) =>
      let st1 := targets.foldl (fun s t =>
        match t with
        | .name idn _ => { s with local_variables := setAdd s.local_variables idn }
        | _ => s) st
      visitGo ctx fuel st1 (targets.map .exp ++ (.exp value :: rest))
    | .stm (.ifStmt t body) => visitGo ctx fuel st (.exp t :: (body.map .stm ++ rest))
    | .stm .passStmt => visitGo ctx fuel st rest
    | .stm (.importStmt _) => visitGo ctx fuel st rest
    | .stm (.importFrom _ _) => visitGo ctx fuel st rest

/-- `DependencyCollector.visit` applied to a component's node. -/
def visitStmt (ctx : DepCtx) (st : DepState) (s : PyStmt) : DepState :=
  visitGo ctx (stmtCount s + 1) st [.stm s]

/-! ### Component collection (`_collect_components`, `ast.walk`) -/

/-- The child statements a statement contributes to `ast.walk`
(expressions contain no class/function definitions in this model). -/
def childStmts : PyStmt → List PyStmt
  | .classDef _ _ body _ _ _ => body
  | .funcDef _ _ body _ _ _ => body
  | .ifStmt _ body => body
  | _ => []


/-- `ast.walk`: breadth-first traversal over a queue, tagging each statement
with whether its parent is the `Module` node (what `add_parent_to_nodes`
makes observable).  The fuel equals the number of nodes and is exact. -/
def walkQ : Nat → List (Bool × PyStmt) → List (Bool × PyStmt)
  | 0, _ => []
  | _ + 1, [] => []
  | fuel + 1, (pm, s) :: rest =>
    (pm, s) :: walkQ fuel (rest ++ (childStmts s).map (fun c => (false, c)))

def walkModule (m : PyModule) : List (Bool × PyStmt) :=
  walkQ (stmtsCount m + 1) (m.map (fun s => (true, s)))

/-- Python dict assignment `table[k] = v`: overwrite in place or append. -/
def dictSet (table : List (String × CodeComponent)) (k : String) (v : CodeComponent) :
    List (String × CodeComponent) :=
  if (table.find? (fun p => p.1 == k)).isSome
  then table.map (fun p => if p.1 == k then (p.1, v) else p)
  else table ++ [(k, v)]

/-- `_collect_components` for one parsed file.  Faithful to two slips in the
source: a method's `has_docstring` is computed from `node.body` (the class
body) instead of `item.body` (the method body), and the function branch
calls the nonexistent `self._get_string` whenever the function has a
docstring, which raises `AttributeError` (uncaught: `_parse_file` only
catches `SyntaxError` and `UnicodeDecodeError`). -/
def collect_components (tree : PyModule) (file_path relative_path module_path : String)
    (table0 : List (String × CodeComponent)) :
    Except String (List (String × CodeComponent)) :=
  (walkModule tree).foldlM (fun table pns =>
    match pns with
    | (pm, node) =>
      match node with
      | .classDef cname _ body lineno endLineno _ =>
        let class_id := module_path ++ "." ++ cname
        let has_doc := firstIsStr body
        let doc := if has_doc then get_docstring node else ""
        let comp : CodeComponent :=
          { id := class_id, node := some node, component_type := "class"
            file_path := file_path, relative_path := relative_path
            depends_on := [], source_code := some (get_source_segment node)
            start_line := lineno, end_line := endLineno
            has_docstring := has_doc, docstring := doc }
        let table1 := dictSet table class_id comp
        Except.ok (body.foldl (fun tb item =>
          match item with
          | .funcDef mname _ _ mline mend _ =>
            let method_id := class_id ++ "." ++ mname
            let mhas := firstIsStr body
            let mdoc := if mhas then get_docstring item else ""
            dictSet tb method_id
              { id := method_id, node := some item, component_type := "method"
                file_path := file_path, relative_path := relative_path
                depends_on := [], source_code := some (get_source_segment item)
                start_line := mline, end_line := mend
                has_docstring := mhas, docstring := mdoc }
          | _ => tb) table1)
      | .funcDef fname _ body lineno endLineno _ =>
        if pm then
          let func_id := module_path ++ "." ++ fname
          let has_doc := firstIsStr body
          if has_doc then Except.error "AttributeError: _get_string"
          else
            Except.ok (dictSet table func_id
              { id := func_id, node := some node, component_type := "function"
                file_path := file_path, relative_path := relative_path
                depends_on := [], source_code := some (get_source_segment node)
                start_line := lineno, end_line := endLineno
                has_docstring := has_doc, docstring := "" })
        else Except.ok table
      | _ => Except.ok table) table0

/-! ### Dependency resolution (`_resolve_dependencies`) -/

/-- The last dot-segment of an id (`component.id.split('.')[-1]`). -/
def lastSeg (s : String) : String := (pySplitDot s).getLastD ""

/-- A parsed repository file as `_parse_file`/`_resolve_dependencies` see it:
its absolute path, repo-relative path, and syntax tree. -/
structure RepoFile where
  file_path : String
  relative_path : String
  tree : PyModule
deriving Repr

def isKey (table : List (String × CodeComponent)) (k : String) : Bool :=
  (table.find? (fun p => p.1 == k)).isSome

/-- The relocation scan of `_resolve_dependencies`.  `prev` is the current
value of the leaked local `component_node` (the initialisation line assigns
the misspelt `comonent_node`, so `component_node` persists across loop
iterations and is unbound before its first assignment).  The `function`
branch has no `break` (last top-level match wins); the `class` branch stops
at the first match; the `method` branch inspects only the first statement of
each matching class body (a stray `break` ends the inner loop after one
iteration) and never breaks the outer loop. -/
def relocate (component : CodeComponent) (tree : PyModule) (prev : Option PyStmt) :
    Option PyStmt :=
  if component.component_type == "function" then
    tree.foldl (fun acc node =>
      match node with
      | .funcDef n _ _ _ _ _ => if n == lastSeg component.id then some node else acc
      | _ => acc) prev
  else if component.component_type == "class" then
    match tree.find? (fun node =>
        match node with
        | .classDef n _ _ _ _ _ => n == lastSeg component.id
        | _ => false) with
    | some node => some node
    | none => prev
  else if component.component_type == "method" then
    let parts := pySplitDot component.id
    let class_name := parts.dropLast.getLastD ""
    let method_name := parts.getLastD ""
    tree.foldl (fun acc node =>
      match node with
      | .classDef n _ body _ _ _ =>
        if n == class_name then
          match body.head? with
          | some (.funcDef mn margs mbody ml me ms) =>
            if mn == method_name then some (.funcDef mn margs mbody ml me ms) else acc
          | _ => acc
        else acc
      | _ => acc) prev
  else prev

/-- One iteration of the `_resolve_dependencies` loop for `component`:
re-read and re-parse the file, collect its imports, relocate the node (with
the stale-local semantics above), then collect and filter the dependencies.
`Except.error` models the uncaught exceptions (`IOError` when the recorded
file is gone, `UnboundLocalError` when `component_node` was never assigned);
the `except` clause of the source only catches `SyntaxError` and
`UnicodeDecodeError`. -/
def resolveOne (files : List RepoFile) (modules : List String)
    (table : List (String × CodeComponent)) (prev : Option PyStmt)
    (component : CodeComponent) : Except String (CodeComponent × Option PyStmt) :=
  match files.find? (fun f => f.file_path == component.file_path) with
  | none => Except.error "IOError: file not found"
  | some f =>
    let imp := collectImports f.tree
    let module_path := file_to_module_path component.relative_path
    let cnodeOpt := relocate component f.tree prev
    match cnodeOpt with
    | none => Except.error "UnboundLocalError: component_node"
    | some cnode =>
      let ctx : DepCtx :=
        { imports := imp.imports, from_imports := imp.from_imports
          current_module := module_path, repo_modules := modules }
      let locals0 : List String :=
        match cnode with
        | .funcDef _ args _ _ _ _ => args.foldl setAdd []
        | _ => []
      let stv := visitStmt ctx ⟨[], locals0⟩ cnode
      let updated := component.depends_on
        ++ (stv.dependencies.filter (fun d => !(component.depends_on.contains d)))
      let filtered := updated.filter (fun dep =>
        isKey table dep || modules.contains ((pySplitDot dep).headD ""))
      Except.ok ({ component with depends_on := filtered }, some cnode)

/-- `_resolve_dependencies`: resolve every component in table order,
threading the leaked `component_node` local across iterations. -/
def resolve_dependencies (files : List RepoFile) (modules : List String)
    (table : List (String × CodeComponent)) :
    Except String (List (String × CodeComponent)) :=
  let rec go (pending : List (String × CodeComponent)) (prev : Option PyStmt)
      (done : List (String × CodeComponent)) :
      Except String (List (String × CodeComponent)) :=
    match pending with
    | [] => Except.ok done
    | (cid, comp) :: rest =>
      match resolveOne files modules table prev comp with
      | Except.error e => Except.error e
      | Except.ok (comp2, prev2) => go rest prev2 (done ++ [(cid, comp2)])
  go table none []

/-! ### Class → method attachment (`_add_class_method_dependencies`) -/

/-- Append a method id to `class_methods[class_id]` (list append). -/
def cmAppend (cm : List (String × List String)) (k v : String) :
    List (String × List String) :=
  cm.map (fun p => if p.1 == k then (p.1, p.2 ++ [v]) else p)

/-- `if class_id not in class_methods: class_methods[class_id] = []`. -/
def cmEnsure (cm : List (String × List String)) (k : String) :
    List (String × List String) :=
  if (cm.find? (fun p => p.1 == k)).isSome then cm else cm ++ [(k, [])]

/-- `set.add` on a component's `depends_on`. -/
def compAddDep (table : List (String × CodeComponent)) (cid dep : String) :
    List (String × CodeComponent) :=
  table.map (fun p =>
    if p.1 == cid then (p.1, { p.2 with depends_on := setAdd p.2.depends_on dep }) else p)

/-- `_add_class_method_dependencies`: group the method components by the id
prefix of their class, keeping every method except `__init__`, then add each
kept method id to the dependency set of the component registered under the
class id. -/
def add_class_method_dependencies (components : List (String × CodeComponent)) :
    List (String × CodeComponent) :=
  let class_methods := components.foldl (fun cm p =>
    if p.2.component_type == "method" then
      let parts := pySplitDot p.1
      if parts.length ≥ 2 then
        let method_name := parts.getLastD ""
        let class_id := ".".intercalate parts.dropLast
        let cm1 := cmEnsure cm class_id
        if method_name != "__init__" then cmAppend cm1 class_id p.1 else cm1
      else cm
    else cm) ([] : List (String × List String))
  class_methods.foldl (fun comps p =>
    if isKey comps p.1 then
      p.2.foldl (fun cs mid => compAddDep cs p.1 mid) comps
    else comps) components

/-! ### `parse_repository` -/

/-- `parse_repository`: register every module, collect the components of
every file (pass 1), resolve dependencies (pass 2), then attach class→method
dependencies (pass 3). -/
def parse_repository (files : List RepoFile) :
    Except String (List (String × CodeComponent)) :=
  let modules := files.foldl (fun ms f => setAdd ms (file_to_module_path f.relative_path)) []
  match files.foldlM (fun table f =>
      collect_components f.tree f.file_path f.relative_path
        (file_to_module_path f.relative_path) table) [] with
  | Except.error e => Except.error e
  | Except.ok table =>
    match resolve_dependencies files modules table with
    | Except.error e => Except.error e
    | Except.ok table2 => Except.ok (add_class_method_dependencies table2)

/-! ### `build_graph_from_components` -/

/-- `build_graph_from_components`: one graph key per component, each
dependency added only when it is itself a component key.  (Self-loops are
not filtered: a component that depends on its own id keeps that edge.) -/
def build_graph_from_components (components : List (String × CodeComponent)) : Graph :=
  components.foldl (fun graph p =>
    match p with
    | (comp_id, component) =>
      let graph1 :=
        if (graph.find? (fun q => q.1 == comp_id)).isSome then graph
        else graph ++ [(comp_id, [])]
      component.depends_on.foldl (fun gr dep =>
        if isKey components dep then
          gr.map (fun q => if q.1 == comp_id then (q.1, setAdd q.2 dep) else q)
        else gr) graph1) []

/-- Total number of edges of a graph (with dependency multiplicity). -/
def edgeCount (g : Graph) : Nat := (g.map (fun p => p.2.length)).sum

/-! ## Concrete inputs used by scenario theorems and counterexamples -/

/-- The two-node cycle `{A: {B}, B: {A}}` of the scenario claim. -/
def gAB : Graph := [("A", ["B"]), ("B", ["A"])]

/-- A plain three-cycle `{A: {B}, B: {C}, C: {A}}`. -/
def g3 : Graph := [("A", ["B"]), ("B", ["C"]), ("C", ["A"])]

/-- A graph with a dangling edge target: `{A: {B}}` with no node `B`. -/
def gDangle : Graph := [("A", ["B"])]

/-- A cyclic graph (self-loop) with a dangling edge target. -/
def gSelfB : Graph := [("A", ["A", "B"])]

/-- A single self-loop `{A: {A}}`. -/
def gSelf : Graph := [("A", ["A"])]

/-- A closed acyclic two-node graph `{A: {B}, B: {}}`. -/
def gSimple : Graph := [("A", ["B"]), ("B", [])]

/-- A component table whose only component depends on itself (a recursive
function produces exactly this shape). -/
def selfDepComponent : CodeComponent :=
  { id := "m.f", node := none, component_type := "function"
    file_path := "/repo/m.py", relative_path := "m.py"
    depends_on := ["m.f"], source_code := none
    start_line := 1, end_line := 2, has_docstring := false, docstring := "" }

def selfDepTable : List (String × CodeComponent) := [("m.f", selfDepComponent)]

/-- C5 failing input: class `Foo` with a docstring whose method `bar` has
none. -/
def c5Module : PyModule :=
  [.classDef "Foo" []
    [.exprStmt (.constStr "Class doc."),
     .funcDef "bar" ["self"] [.passStmt] 3 4 "def bar(self): pass"]
    1 4 "class Foo: ..."]

/-- The body of method `bar` of `c5Module` (its own first statement is not a
string literal). -/
def c5BarBody : List PyStmt := [.passStmt]

/-- C5 second aspect: a top-level function that has a docstring. -/
def c5FuncModule : PyModule :=
  [.funcDef "f" [] [.exprStmt (.constStr "doc")] 1 2 "def f): ..."]

/-- C6 failing input: method `m1` is not the first statement of its class
body, so the relocation scan (which inspects only the first statement)
cannot find it. -/
def c6Module : PyModule :=
  [.classDef "Foo" []
    [.exprStmt (.constStr "cdoc"),
     .funcDef "m1" ["self"] [.exprStmt (.call (.name "helper" true) [])] 3 4 ""]
    1 4 "",
   .funcDef "helper" [] [.passStmt] 6 7 ""]

def c6Files : List RepoFile := [⟨"/repo/m.py", "m.py", c6Module⟩]

/-- The method component `m.Foo.m1` exactly as `_collect_components` emits it
for `c6Module`. -/
def c6MethodComponent : CodeComponent :=
  { id := "m.Foo.m1"
    node := some (.funcDef "m1" ["self"] [.exprStmt (.call (.name "helper" true) [])] 3 4 "")
    component_type := "method"
    file_path := "/repo/m.py", relative_path := "m.py"
    depends_on := [], source_code := some ""
    start_line := 3, end_line := 4, has_docstring := true, docstring := "" }

/-- C6 second aspect: the very first collected component fails relocation
(a class nested under an `if`), so `component_node` is read unbound. -/
def c6CrashModule : PyModule :=
  [.ifStmt .constOther [.classDef "C" [] [.passStmt] 2 2 ""]]

def c6CrashFiles : List RepoFile := [⟨"/repo/n.py", "n.py", c6CrashModule⟩]

/-- C9 witness input: a class component and one method component under it. -/
def c9ClassComponent : CodeComponent :=
  { id := "m.Foo", node := none, component_type := "class"
    file_path := "/repo/m.py", relative_path := "m.py"
    depends_on := [], source_code := none
    start_line := 1, end_line := 4, has_docstring := false, docstring := "" }

def c9MethodComponent : CodeComponent :=
  { id := "m.Foo.bar", node := none, component_type := "method"
    file_path := "/repo/m.py", relative_path := "m.py"
    depends_on := [], source_code := none
    start_line := 2, end_line := 3, has_docstring := false, docstring := "" }

def c9Table : List (String × CodeComponent) :=
  [("m.Foo", c9ClassComponent), ("m.Foo.bar", c9MethodComponent)]

/-! ## Proof-level definitions -/

/-- The output respects dependencies: whenever a listed node has an edge to
`v`, `v` is listed earlier. -/
def OrdInv (g : Graph) (l : List String) : Prop :=
  ∀ u v : String, edgeMem g u v → u ∈ l → v ∈ l ∧ l.indexOf v < l.indexOf u

/-- Lookup in the `class_methods` grouping dict (empty when absent). -/
def cmGet (cm : List (String × List String)) (k : String) : List String :=
  ((cm.find? (fun p => p.1 == k)).map Prod.snd).getD []

/-- The id prefix a method id attaches to (`'.'.join(parts[:-1])`). -/
def parentId (s : String) : String := ".".intercalate (pySplitDot s).dropLast

/-- What the attachment pass may add to component `k`: a non-`__init__`
method component whose id nests directly under `k`. -/
def MethodDepOf (components : List (String × CodeComponent)) (x k : String) : Prop :=
  lastSeg x ≠ "__init__" ∧ parentId x = k ∧
    ∃ m, (x, m) ∈ components ∧ m.component_type = "method"

/-- Number of mentioned nodes not yet visited (bounds the DFS depth). -/
def unvis (g : Graph) (vis : List String) : Nat :=
  ((mentioned g).filter (fun x => decide (x ∉ vis))).length

/-- What one `dfs` call does to the state `(visited, result)`: it appends a
block `nw` of fresh mentioned nodes to the result, prepends a permutation
`pre` of the same block to the visited list, and keeps `visited` duplicate
free. -/
def DfsConcl (g : Graph) (s s2 : List String × List String) : Prop :=
  ∃ nw pre : List String,
    s2.2 = s.2 ++ nw ∧
    s2.1 = pre ++ s.1 ∧
    pre.Perm nw ∧
    (∀ x ∈ nw, x ∉ s.1) ∧
    (∀ x ∈ nw, x ∈ mentioned g) ∧
    s2.1.Nodup



/-- The number of still-unindexed mentioned nodes: the decreasing measure of
`strongconnect`'s recursion. -/
def unidx (g : Graph) (st : TJ) : Nat :=
  ((mentioned g).filter (fun x => (lget st.index x).isNone)).length

def completedIn (st : TJ) (x : String) : Prop :=
  (lget st.index x).isSome ∧ x ∉ st.onstack

def GoodRank (g : Graph) (st : TJ) (rk : String → Nat) : Prop :=
  ∀ u : String, completedIn st u → ∀ w ∈ glookup g u, w ≠ u →
    completedIn st w ∧ rk w < rk u

def LB (st : TJ) : Nat :=
  (st.onstack.filterMap (fun x => lget st.index x)).foldr min st.counter

def INVb (g : Graph) (st : TJ) : Prop :=
  (∀ x : String, x ∈ st.onstack ↔ x ∈ st.stack) ∧
  st.stack.Nodup ∧
  (∀ x ∈ st.stack, (lget st.index x).isSome) ∧
  (∀ x i, lget st.index x = some i → i < st.counter) ∧
  (∀ x : String, (lget st.index x).isSome → x ∈ mentioned g) ∧
  (st.result ≠ [] ∨ ∃ rk : String → Nat, GoodRank g st rk)

/-! ## General lemmas -/

theorem glookup_eq_of_find? {g : Graph} {u : String} {pr : String × List String}
    (h : g.find? (fun p => p.1 == u) = some pr) : glookup g u = pr.2 := by
  simp [glookup, h]

theorem edgeMem_elim {g : Graph} {u v : String} (h : edgeMem g u v) :
    ∃ pr ∈ g, pr.1 = u ∧ v ∈ pr.2 := by
  unfold edgeMem glookup at h
  cases hf : g.find? (fun p => p.1 == u) with
  | none => rw [hf] at h; simp at h
  | some pr =>
    rw [hf] at h
    refine ⟨pr, List.mem_of_find?_eq_some hf, ?_, by simpa using h⟩
    have := List.find?_some hf
    simpa using this

theorem edge_key {g : Graph} {u v : String} (h : edgeMem g u v) : u ∈ keysOf g := by
  obtain ⟨pr, hmem, hfst, _⟩ := edgeMem_elim h
  exact hfst ▸ List.mem_map_of_mem Prod.fst hmem

theorem pathP_rank_lt {g : Graph} {rk : String → Nat}
    (h : ∀ p ∈ g, ∀ v ∈ p.2, rk v < rk p.1) :
    ∀ {u v : String}, PathP g u v → rk v < rk u := by
  intro u v hp
  induction hp with
  | single he =>
    obtain ⟨pr, hmem, hfst, hv⟩ := edgeMem_elim he
    exact hfst ▸ h pr hmem _ hv
  | cons he _ ih =>
    obtain ⟨pr, hmem, hfst, hv⟩ := edgeMem_elim he
    exact lt_trans ih (hfst ▸ h pr hmem _ hv)

/-- A strictly edge-decreasing rank witnesses acyclicity. -/
theorem acyclic_of_rank (g : Graph) (rk : String → Nat)
    (h : ∀ p ∈ g, ∀ v ∈ p.2, rk v < rk p.1) : Acyclic g :=
  fun x hx => lt_irrefl (rk x) (pathP_rank_lt h hx)

/-! ## Claim theorems: concrete scenarios and counterexamples -/

/-- C8: on the two-node cycle `{A: {B}, B: {A}}`, `detect_cycles` reports
exactly one cycle, containing `A` and `B`; `resolve_cycles` removes `B → A`
and keeps `A → B`, so exactly one of the two edges remains; and
`dependency_first_dfs` places `B`, the surviving edge's target, before its
source `A`. -/
theorem C8_two_node_cycle_scenario :
    detect_cycles gAB = [["B", "A"]] ∧
    resolve_cycles gAB = [("A", ["B"]), ("B", [])] ∧
    dependency_first_dfs gAB = ["B", "A"] ∧
    (dependency_first_dfs gAB).indexOf "B" < (dependency_first_dfs gAB).indexOf "A" :=
  ⟨by decide, by decide, by decide, by decide⟩

/-- C5 (code bug): for the class `Foo` with a docstring whose method `bar`
has none, `_collect_components` marks the method component `pkg.mod.Foo.bar`
with `has_docstring = true` — the flag is computed from `node.body[0]` (the
class body) instead of the method's own body `item.body[0]` — while its
`docstring` is the empty string, so `has_docstring` does not agree with the
component's own first body statement.  Moreover a top-level function that
does have a docstring makes collection raise (`self._get_string` does not
exist), instead of recording the docstring. -/
theorem C5_docstring_flag_code_bug :
    (collect_components c5Module "/repo/pkg/mod.py" "pkg/mod.py" "pkg.mod" []).map
        (fun t => t.map (fun p => (p.1, p.2.component_type, p.2.has_docstring, p.2.docstring)))
      = Except.ok [("pkg.mod.Foo", "class", true, "Class doc."),
                   ("pkg.mod.Foo.bar", "method", true, "")] ∧
    firstIsStr c5BarBody = false ∧
    (collect_components c5FuncModule "/repo/m2.py" "m2.py" "m2" []).map
        (fun t => t.map Prod.fst)
      = Except.error "AttributeError: _get_string" :=
  ⟨by decide, by decide, by decide⟩

/-- C6 (code bug): the initialisation line of `_resolve_dependencies` assigns
the misspelt `comonent_node`, so the real `component_node` local leaks across
loop iterations.  For `c6Module`, the method `m.Foo.m1` cannot be relocated
(the scan looks only at the first statement of the class body), yet the run
does not leave its dependency set empty: the stale node of the previously
processed component (the whole class `Foo`) is analysed instead, and
`m.Foo.m1` ends with the non-empty dependency set `["m.helper"]`.  When the
very first component fails relocation, the read of the never-assigned local
raises `UnboundLocalError` instead of continuing. -/
theorem C6_stale_component_node_code_bug :
    relocate c6MethodComponent c6Module none = none ∧
    (collect_components c6Module "/repo/m.py" "m.py" "m" []).map
        (fun t => (t.find? (fun p => p.1 == "m.Foo.m1")).isSome)
      = Except.ok true ∧
    ((collect_components c6Module "/repo/m.py" "m.py" "m" []).bind
        (fun t => (resolve_dependencies c6Files ["m"] t).map
          (fun t2 => t2.map (fun p => (p.1, p.2.depends_on)))))
      = Except.ok [("m.Foo", ["m.helper"]), ("m.Foo.m1", ["m.helper"]), ("m.helper", [])] ∧
    ((collect_components c6CrashModule "/repo/n.py" "n.py" "n" []).bind
        (fun t => (resolve_dependencies c6CrashFiles ["n"] t).map
          (fun t2 => t2.map (fun p => (p.1, p.2.depends_on)))))
      = Except.error "UnboundLocalError: component_node" :=
  ⟨by rfl, by decide, by decide, by decide⟩

/-- C1 counterexample: for the input graph `{A: {B}}` (an edge to a
non-node), `resolve_cycles` returns an acyclic graph, yet the list
`dependency_first_dfs` returns is not a permutation of the node ids of the
graph — its length differs from the node count, because the traversal also
emits the dangling edge target `B`. -/
theorem C1_counterexample :
    Acyclic (resolve_cycles gDangle) ∧
    ¬ (dependency_first_dfs gDangle).Perm (keysOf gDangle) ∧
    (dependency_first_dfs gDangle).length ≠ (keysOf gDangle).length := by
  refine ⟨?_, by decide, by decide⟩
  have h : resolve_cycles gDangle = gDangle := by decide
  rw [h]
  exact acyclic_of_rank _ (fun s => if s = "A" then 1 else 0) (by decide)

/-- C2 counterexample: on the plain three-cycle `{A: {B}, B: {C}, C: {A}}`,
`detect_cycles` reports exactly one cycle, but `resolve_cycles` removes no
edge at all (the reported member sequence `[C, B, A]` is the stack pop
order, and neither consecutive pair `C → B` nor `B → A` is an edge), so it
does not remove exactly one edge per reported cycle. -/
theorem C2_counterexample :
    (detect_cycles g3).length = 1 ∧
    resolve_cycles g3 = g3 ∧
    edgeCount (resolve_cycles g3) = edgeCount g3 :=
  ⟨by decide, by decide, by decide⟩

/-- C3 counterexample: the graph `{A: {A}}` contains a directed cycle (the
self-loop is a path of length one from `A` to itself), yet `detect_cycles`
returns the empty list — a self-loop forms a strongly connected component of
size one, which is never reported. -/
theorem C3_counterexample :
    PathP gSelf "A" "A" ∧ detect_cycles gSelf = [] :=
  ⟨PathP.single (by decide), by decide⟩

/-- C4 counterexample: a component that depends on its own id keeps the
self-loop in the graph `build_graph_from_components` returns; self-loops are
not pruned. -/
theorem C4_counterexample :
    build_graph_from_components selfDepTable = [("m.f", ["m.f"])] ∧
    edgeMem (build_graph_from_components selfDepTable) "m.f" "m.f" :=
  ⟨by decide, by decide⟩

/-- C10 counterexample: for the input graph `{A: {A, B}}` (cyclic, with the
dangling edge target `B`), the output of `dependency_first_dfs` is not a
permutation of the node set: it returns `[B, A]` while the only node is
`A`. -/
theorem C10_counterexample :
    dependency_first_dfs gSelfB = ["B", "A"] ∧
    ¬ (dependency_first_dfs gSelfB).Perm (keysOf gSelfB) :=
  ⟨by decide, by decide⟩

/-! ## C4: `build_graph_from_components` membership invariant -/

theorem setAdd_mem {l : List String} {d x : String} (h : x ∈ setAdd l d) :
    x ∈ l ∨ x = d := by
  unfold setAdd at h
  by_cases hd : d ∈ l
  · simp [hd] at h; exact Or.inl h
  · simp [hd] at h; exact h

theorem mem_setAdd_of_mem {l : List String} {d x : String} (h : x ∈ l) :
    x ∈ setAdd l d := by
  unfold setAdd
  by_cases hd : d ∈ l <;> simp [hd, h]

theorem isKey_iff {table : List (String × CodeComponent)} {k : String} :
    isKey table k = true ↔ k ∈ table.map Prod.fst := by
  unfold isKey
  rw [List.find?_isSome]
  constructor
  · rintro ⟨x, hx, hxk⟩
    exact (eq_of_beq hxk) ▸ List.mem_map_of_mem Prod.fst hx
  · intro hk
    obtain ⟨x, hx, hxk⟩ := List.mem_map.mp hk
    exact ⟨x, hx, by simp [hxk]⟩

/-- C4 (amended): in the graph built by `build_graph_from_components`,
edges to non-existent components are pruned — every member of every
dependency set is a key of the component table.  (Self-loops are preserved,
not pruned; see the counterexample.) -/
theorem C4_amended (components : List (String × CodeComponent)) :
    ∀ p ∈ build_graph_from_components components, ∀ v ∈ p.2,
      v ∈ components.map Prod.fst := by
  have main : ∀ (l : List (String × CodeComponent)) (g0 : Graph),
      (∀ p ∈ g0, ∀ v ∈ p.2, v ∈ components.map Prod.fst) →
      ∀ p ∈ l.foldl (fun graph p =>
        match p with
        | (comp_id, component) =>
          let graph1 :=
            if (graph.find? (fun q => q.1 == comp_id)).isSome then graph
            else graph ++ [(comp_id, [])]
          component.depends_on.foldl (fun gr dep =>
            if isKey components dep then
              gr.map (fun q => if q.1 == comp_id then (q.1, setAdd q.2 dep) else q)
            else gr) graph1) g0, ∀ v ∈ p.2, v ∈ components.map Prod.fst := by
    intro l
    induction l with
    | nil => intro g0 h0; simpa using h0
    | cons hd tl ih =>
      intro g0 h0
      rw [List.foldl_cons]
      apply ih
      -- one outer step preserves the invariant
      have h1 : ∀ p ∈ (if (g0.find? (fun q => q.1 == hd.1)).isSome then g0
          else g0 ++ [(hd.1, [])]), ∀ v ∈ p.2, v ∈ components.map Prod.fst := by
        by_cases hf : (g0.find? (fun q => q.1 == hd.1)).isSome
        · simpa [hf] using h0
        · simp only [hf, if_false]
          intro p hp v hv
          rcases List.mem_append.mp hp with hp | hp
          · exact h0 p hp v hv
          · simp at hp
            rw [hp] at hv
            simp at hv
      -- the inner fold over the dependencies preserves it
      have h2 : ∀ (ds : List String) (gr : Graph),
          (∀ p ∈ gr, ∀ v ∈ p.2, v ∈ components.map Prod.fst) →
          ∀ p ∈ ds.foldl (fun gr dep =>
            if isKey components dep then
              gr.map (fun q => if q.1 == hd.1 then (q.1, setAdd q.2 dep) else q)
            else gr) gr, ∀ v ∈ p.2, v ∈ components.map Prod.fst := by
        intro ds
        induction ds with
        | nil => intro gr hg; simpa using hg
        | cons d ds ihd =>
          intro gr hg
          rw [List.foldl_cons]
          apply ihd
          by_cases hk : isKey components d
          · simp only [hk, if_true]
            intro p hp v hv
            obtain ⟨q, hq, hpq⟩ := List.mem_map.mp hp
            by_cases hqk : q.1 == hd.1
            · rw [if_pos hqk] at hpq
              rw [← hpq] at hv
              rcases setAdd_mem hv with hv | hv
              · exact hg q hq v hv
              · exact hv ▸ isKey_iff.mp hk
            · rw [if_neg hqk] at hpq
              rw [← hpq] at hv
              exact hg q hq v hv
          · simpa [hk] using hg
      exact fun p hp => h2 hd.2.depends_on _ h1 p hp
  exact main components [] (by simp)

/-- Witness for C4: on the self-dependency table, the built graph's only
dependency member is the key of the table. -/
theorem C4_amended_witness : "m.f" ∈ selfDepTable.map Prod.fst :=
  C4_amended selfDepTable ("m.f", ["m.f"]) (by decide) "m.f" (by decide)

/-! ## C7: serialization round trip -/

/-- C7: saving a component table and loading it back reproduces every
component's serialized metadata fields exactly — each loaded component
equals the original with only the tree-node and raw-source fields absent.
The hypothesis states that each `depends_on` list models a Python set
(no duplicate members). -/
theorem C7_roundtrip (components : List (String × CodeComponent))
    (h : ∀ p ∈ components, p.2.depends_on.Nodup) :
    load_dependency_graph (save_dependency_graph components)
      = components.map (fun p => (p.1, { p.2 with node := none, source_code := none })) := by
  unfold load_dependency_graph save_dependency_graph
  rw [List.map_map]
  apply List.map_congr_left
  intro p hp
  have hd : p.2.depends_on.dedup = p.2.depends_on :=
    List.dedup_eq_self.mpr (h p hp)
  simp only [Function.comp_apply]
  unfold CodeComponent.from_dict CodeComponent.to_dict
  simp [hd]

/-- Witness for C7 at a concrete one-component table. -/
theorem C7_roundtrip_witness :
    (∀ p ∈ selfDepTable, p.2.depends_on.Nodup) ∧
    load_dependency_graph (save_dependency_graph selfDepTable)
      = selfDepTable.map (fun p => (p.1, { p.2 with node := none, source_code := none })) :=
  ⟨by decide, C7_roundtrip selfDepTable (by decide)⟩

/-! ## C9: the class → method attachment pass -/

theorem setAdd_self (l : List String) (d : String) : d ∈ setAdd l d := by
  unfold setAdd
  by_cases h : d ∈ l <;> simp [h]

theorem cmGet_append_of_key {cm : List (String × List String)} {k : String}
    (h : (cm.find? (fun p => p.1 == k)).isSome) (v : String) :
    cmGet (cmAppend cm k v) k = cmGet cm k ++ [v] := by
  induction cm with
  | nil => simp at h
  | cons hd tl ih =>
    obtain ⟨a, b⟩ := hd
    by_cases hk : a = k
    · subst hk
      simp [cmAppend, cmGet, List.find?_cons]
    · rw [List.find?_cons_of_neg _ (by simpa using hk)] at h
      have := ih h
      simp only [cmAppend, List.map_cons] at this ⊢
      rw [if_neg (by simpa using hk)]
      unfold cmGet at this ⊢
      rw [List.find?_cons_of_neg _ (by simpa using hk),
        List.find?_cons_of_neg _ (by simpa using hk)]
      exact this

theorem cmEnsure_key (cm : List (String × List String)) (k : String) :
    ((cmEnsure cm k).find? (fun p => p.1 == k)).isSome := by
  unfold cmEnsure
  by_cases h : (cm.find? (fun p => p.1 == k)).isSome
  · rw [if_pos h]; exact h
  · rw [if_neg h]
    rw [List.find?_append]
    cases hf : cm.find? (fun p => p.1 == k) with
    | some x => rw [hf] at h; simp at h
    | none => simp [List.find?_cons]

theorem cmEnsure_get (cm : List (String × List String)) (k k2 : String) :
    cmGet (cmEnsure cm k2) k = cmGet cm k := by
  unfold cmEnsure
  by_cases h : (cm.find? (fun p => p.1 == k2)).isSome
  · rw [if_pos h]
  · rw [if_neg h]
    unfold cmGet
    rw [List.find?_append]
    cases hf : cm.find? (fun p => p.1 == k) with
    | some x => simp
    | none =>
      by_cases hk : k2 = k
      · subst hk
        simp [List.find?_cons]
      · simp [List.find?_cons, hk]

theorem cmGet_append_mono {cm : List (String × List String)} {k x : String}
    (h : x ∈ cmGet cm k) (k2 v : String) : x ∈ cmGet (cmAppend cm k2 v) k := by
  induction cm with
  | nil => simp [cmGet, List.find?] at h
  | cons hd tl ih =>
    obtain ⟨a, b⟩ := hd
    by_cases hk : a = k
    · subst hk
      by_cases hk2 : a = k2 <;>
        simp_all [cmAppend, cmGet, List.find?_cons, List.mem_append]
    · unfold cmGet at h
      rw [List.find?_cons_of_neg _ (by simpa using hk)] at h
      have := ih h
      simp only [cmAppend, List.map_cons] at this ⊢
      by_cases hk2 : a = k2
      · unfold cmGet at this ⊢
        rw [if_pos (by simpa using hk2)]
        rw [List.find?_cons_of_neg _ (by simpa using hk)]
        exact this
      · unfold cmGet at this ⊢
        rw [if_neg (by simpa using hk2)]
        rw [List.find?_cons_of_neg _ (by simpa using hk)]
        exact this

theorem cmGet_ensure_mono {cm : List (String × List String)} {k x : String}
    (h : x ∈ cmGet cm k) (k2 : String) : x ∈ cmGet (cmEnsure cm k2) k := by
  rw [cmEnsure_get]; exact h

theorem cmGet_mem {cm : List (String × List String)} {k : String}
    (h : cmGet cm k ≠ []) : (k, cmGet cm k) ∈ cm := by
  induction cm with
  | nil => simp [cmGet, List.find?] at h
  | cons hd tl ih =>
    obtain ⟨a, b⟩ := hd
    by_cases hk : a = k
    · subst hk
      unfold cmGet at h ⊢
      rw [List.find?_cons_of_pos _ (by simp)] at h ⊢
      simp
    · unfold cmGet at h ⊢
      rw [List.find?_cons_of_neg _ (by simpa using hk)] at h ⊢
      exact List.mem_cons_of_mem _ (ih h)

theorem cmAppend_sound {cm : List (String × List String)} {p : String × List String}
    (h : p ∈ cmAppend cm k v) :
    ∃ q ∈ cm, p.1 = q.1 ∧ (p.2 = q.2 ∨ (p.1 = k ∧ p.2 = q.2 ++ [v])) := by
  obtain ⟨q, hq, hpq⟩ := List.mem_map.mp h
  by_cases hk : q.1 = k
  · rw [if_pos (by simpa using hk)] at hpq
    exact ⟨q, hq, by rw [← hpq], Or.inr ⟨by rw [← hpq]; exact hk, by rw [← hpq]⟩⟩
  · rw [if_neg (by simpa using hk)] at hpq
    exact ⟨q, hq, by rw [hpq], Or.inl (by rw [hpq])⟩

theorem cmEnsure_sound {cm : List (String × List String)} {p : String × List String}
    {k : String} (h : p ∈ cmEnsure cm k) : p ∈ cm ∨ p = (k, []) := by
  unfold cmEnsure at h
  by_cases hf : (cm.find? (fun q => q.1 == k)).isSome
  · rw [if_pos hf] at h; exact Or.inl h
  · rw [if_neg hf] at h
    rcases List.mem_append.mp h with h | h
    · exact Or.inl h
    · simp at h; exact Or.inr h

theorem compAddDep_keys (t : List (String × CodeComponent)) (cid dep : String) :
    (compAddDep t cid dep).map Prod.fst = t.map Prod.fst := by
  unfold compAddDep
  rw [List.map_map]
  apply List.map_congr_left
  intro p _
  by_cases h : p.1 = cid
  · simp [h]
  · simp [h]

theorem compAddDep_sound {t : List (String × CodeComponent)} {cid dep : String}
    {p : String × CodeComponent} (h : p ∈ compAddDep t cid dep) :
    ∃ c, (p.1, c) ∈ t ∧ ∀ x ∈ p.2.depends_on, x ∈ c.depends_on ∨ (x = dep ∧ p.1 = cid) := by
  obtain ⟨q, hq, hpq⟩ := List.mem_map.mp h
  by_cases hk : q.1 = cid
  · rw [if_pos (by simpa using hk)] at hpq
    refine ⟨q.2, by rw [← hpq]; exact hq, ?_⟩
    intro x hx
    rw [← hpq] at hx
    simp only at hx
    rcases setAdd_mem hx with hx | hx
    · exact Or.inl hx
    · exact Or.inr ⟨hx, by rw [← hpq]; exact hk⟩
  · rw [if_neg (by simpa using hk)] at hpq
    exact ⟨q.2, by rw [← hpq]; exact hq, fun x hx => Or.inl (by rw [← hpq] at hx; exact hx)⟩

theorem compAddDep_mono {t : List (String × CodeComponent)} {k : String}
    {c : CodeComponent} (h : (k, c) ∈ t) (cid dep : String) :
    ∃ c2, (k, c2) ∈ compAddDep t cid dep ∧ ∀ x ∈ c.depends_on, x ∈ c2.depends_on := by
  by_cases hk : k = cid
  · refine ⟨{ c with depends_on := setAdd c.depends_on dep }, ?_, ?_⟩
    · have := List.mem_map_of_mem
        (fun p => if p.1 == cid then
          (p.1, { p.2 with depends_on := setAdd p.2.depends_on dep }) else p) h
      simpa [compAddDep, hk] using this
    · intro x hx; exact mem_setAdd_of_mem hx
  · refine ⟨c, ?_, fun x hx => hx⟩
    have := List.mem_map_of_mem
      (fun p => if p.1 == cid then
        (p.1, { p.2 with depends_on := setAdd p.2.depends_on dep }) else p) h
    simpa [compAddDep, hk] using this

theorem compAddDep_establish {t : List (String × CodeComponent)} {cid : String}
    (h : cid ∈ t.map Prod.fst) (dep : String) :
    ∃ c2, (cid, c2) ∈ compAddDep t cid dep ∧ dep ∈ c2.depends_on := by
  obtain ⟨q, hq, hq1⟩ := List.mem_map.mp h
  have := List.mem_map_of_mem
    (fun p => if p.1 == cid then
      (p.1, { p.2 with depends_on := setAdd p.2.depends_on dep }) else p) hq
  refine ⟨{ q.2 with depends_on := setAdd q.2.depends_on dep }, ?_, setAdd_self _ _⟩
  simpa [compAddDep, hq1] using this

theorem phaseA_sound (components : List (String × CodeComponent)) :
    ∀ (l : List (String × CodeComponent)) (cm0 : List (String × List String)),
      (∀ e ∈ l, e ∈ components) →
      (∀ p ∈ cm0, ∀ x ∈ p.2, lastSeg x ≠ "__init__" ∧ parentId x = p.1 ∧
        ∃ m, (x, m) ∈ components ∧ m.component_type = "method") →
      ∀ p ∈ l.foldl (fun cm p =>
          if p.2.component_type == "method" then
            let parts := pySplitDot p.1
            if parts.length ≥ 2 then
              let method_name := parts.getLastD ""
              let class_id := ".".intercalate parts.dropLast
              let cm1 := cmEnsure cm class_id
              if method_name != "__init__" then cmAppend cm1 class_id p.1 else cm1
            else cm
          else cm) cm0,
        ∀ x ∈ p.2, lastSeg x ≠ "__init__" ∧ parentId x = p.1 ∧
          ∃ m, (x, m) ∈ components ∧ m.component_type = "method" := by
  intro l
  induction l with
  | nil => intro cm0 _ h0; simpa using h0
  | cons hd tl ih =>
    intro cm0 hsub h0
    rw [List.foldl_cons]
    apply ih _ (fun e he => hsub e (List.mem_cons_of_mem _ he))
    dsimp only
    by_cases hm : (hd.2.component_type == "method") = true
    · rw [if_pos hm]
      by_cases hlen : (pySplitDot hd.1).length ≥ 2
      · rw [if_pos hlen]
        by_cases hinit : ((pySplitDot hd.1).getLastD "" != "__init__") = true
        · rw [if_pos hinit]
          intro p hp x hx
          rcases cmAppend_sound hp with ⟨q, hq, hpq1, hpq2⟩
          rcases hpq2 with h2 | ⟨hpk, h2⟩
          · rcases cmEnsure_sound hq with hq0 | hq0
            · rw [h2] at hx
              have := h0 q hq0 x hx
              refine ⟨this.1, ?_, this.2.2⟩
              rw [hpq1]
              exact this.2.1
            · rw [hq0] at h2
              rw [h2] at hx
              simp at hx
          · rw [h2] at hx
            rcases List.mem_append.mp hx with hx | hx
            · rcases cmEnsure_sound hq with hq0 | hq0
              · have := h0 q hq0 x hx
                refine ⟨this.1, ?_, this.2.2⟩
                rw [this.2.1, hpq1]
              · rw [hq0] at hx
                simp at hx
            · simp at hx
              subst hx
              refine ⟨by simpa [lastSeg] using hinit, by rw [hpk]; rfl, hd.2, ?_, ?_⟩
              · exact hsub hd (List.mem_cons_self _ _)
              · exact eq_of_beq hm
        · rw [if_neg hinit]
          intro p hp x hx
          rcases cmEnsure_sound hp with hp0 | hp0
          · exact h0 p hp0 x hx
          · rw [hp0] at hx; simp at hx
      · rw [if_neg hlen]; exact h0
    · rw [if_neg hm]; exact h0

theorem phaseA_complete {mid : String} :
    ∀ (l : List (String × CodeComponent)) (cm0 : List (String × List String)),
      ((∃ m : CodeComponent, (mid, m) ∈ l ∧ m.component_type = "method") ∧
          (pySplitDot mid).length ≥ 2 ∧ lastSeg mid ≠ "__init__") ∨
        mid ∈ cmGet cm0 (parentId mid) →
      mid ∈ cmGet (l.foldl (fun cm p =>
          if p.2.component_type == "method" then
            let parts := pySplitDot p.1
            if parts.length ≥ 2 then
              let method_name := parts.getLastD ""
              let class_id := ".".intercalate parts.dropLast
              let cm1 := cmEnsure cm class_id
              if method_name != "__init__" then cmAppend cm1 class_id p.1 else cm1
            else cm
          else cm) cm0) (parentId mid) := by
  intro l
  induction l with
  | nil =>
    intro cm0 h
    rcases h with ⟨⟨m, hm, _⟩, _⟩ | h
    · simp at hm
    · simpa using h
  | cons hd tl ih =>
    intro cm0 h
    rw [List.foldl_cons]
    -- the one-step state
    rcases h with ⟨⟨m, hm, hmty⟩, hlen, hinit⟩ | h
    · rcases List.mem_cons.mp hm with hm | hm
      · -- hd is the method's entry: the step inserts mid
        subst hm
        apply ih
        right
        dsimp only
        have hmb : ((mid, m).2.component_type == "method") = true := by simp [hmty]
        rw [if_pos hmb]
        rw [if_pos hlen]
        have hib : (((pySplitDot mid).getLastD "") != "__init__") = true := by
          simpa [lastSeg] using hinit
        rw [if_pos hib]
        have hkey := cmEnsure_key cm0 (".".intercalate (pySplitDot mid).dropLast)
        have hget := cmGet_append_of_key hkey mid
        have hpf : parentId mid = ".".intercalate (pySplitDot mid).dropLast := rfl
        rw [hpf, hget]
        simp
      · exact ih _ (Or.inl ⟨⟨m, hm, hmty⟩, hlen, hinit⟩)
    · -- already present: one step preserves membership
      apply ih
      right
      dsimp only
      by_cases hmb : (hd.2.component_type == "method") = true
      · rw [if_pos hmb]
        by_cases hlen2 : (pySplitDot hd.1).length ≥ 2
        · rw [if_pos hlen2]
          by_cases hib : (((pySplitDot hd.1).getLastD "") != "__init__") = true
          · rw [if_pos hib]
            exact cmGet_append_mono (cmGet_ensure_mono h _) _ _
          · rw [if_neg hib]
            exact cmGet_ensure_mono h _
        · rw [if_neg hlen2]; exact h
      · rw [if_neg hmb]; exact h

theorem innerB_keys (cid : String) :
    ∀ (ms : List String) (t0 : List (String × CodeComponent)),
      (ms.foldl (fun cs mid => compAddDep cs cid mid) t0).map Prod.fst = t0.map Prod.fst := by
  intro ms
  induction ms with
  | nil => intro t0; rfl
  | cons m rest ih =>
    intro t0
    rw [List.foldl_cons, ih, compAddDep_keys]

theorem innerB_pres {cid2 : String} {tgt mid : String} :
    ∀ (ms : List String) (t0 : List (String × CodeComponent)),
      (∃ c2, (tgt, c2) ∈ t0 ∧ mid ∈ c2.depends_on) →
      ∃ c2, (tgt, c2) ∈ ms.foldl (fun cs m => compAddDep cs cid2 m) t0 ∧
        mid ∈ c2.depends_on := by
  intro ms
  induction ms with
  | nil => intro t0 h; simpa using h
  | cons m rest ih =>
    intro t0 ⟨c2, hc2, hmid⟩
    rw [List.foldl_cons]
    obtain ⟨c3, hc3, hsub⟩ := compAddDep_mono hc2 cid2 m
    exact ih _ ⟨c3, hc3, hsub _ hmid⟩

theorem innerB_est {cid mid : String} :
    ∀ (ms : List String) (t0 : List (String × CodeComponent)),
      cid ∈ t0.map Prod.fst → mid ∈ ms →
      ∃ c2, (cid, c2) ∈ ms.foldl (fun cs m => compAddDep cs cid m) t0 ∧
        mid ∈ c2.depends_on := by
  intro ms
  induction ms with
  | nil => intro t0 _ h; simp at h
  | cons m rest ih =>
    intro t0 hkey hm
    rw [List.foldl_cons]
    rcases List.mem_cons.mp hm with hm | hm
    · subst hm
      exact innerB_pres rest _ (compAddDep_establish hkey mid)
    · exact ih _ (by rw [compAddDep_keys]; exact hkey) hm


theorem phaseB_keys :
    ∀ (pairs : List (String × List String)) (t0 : List (String × CodeComponent)),
      (pairs.foldl (fun comps p =>
          if isKey comps p.1 then
            p.2.foldl (fun cs mid => compAddDep cs p.1 mid) comps
          else comps) t0).map Prod.fst = t0.map Prod.fst := by
  intro pairs
  induction pairs with
  | nil => intro t0; rfl
  | cons pr rest ih =>
    intro t0
    rw [List.foldl_cons, ih]
    by_cases hk : isKey t0 pr.1
    · rw [if_pos hk, innerB_keys]
    · rw [if_neg hk]

theorem phaseB_pres {tgt mid : String} :
    ∀ (pairs : List (String × List String)) (t0 : List (String × CodeComponent)),
      (∃ c2, (tgt, c2) ∈ t0 ∧ mid ∈ c2.depends_on) →
      ∃ c2, (tgt, c2) ∈ pairs.foldl (fun comps p =>
          if isKey comps p.1 then
            p.2.foldl (fun cs m => compAddDep cs p.1 m) comps
          else comps) t0 ∧ mid ∈ c2.depends_on := by
  intro pairs
  induction pairs with
  | nil => intro t0 h; simpa using h
  | cons pr rest ih =>
    intro t0 h
    rw [List.foldl_cons]
    by_cases hk : isKey t0 pr.1
    · rw [if_pos hk]
      exact ih _ (innerB_pres _ _ h)
    · rw [if_neg hk]
      exact ih _ h

theorem phaseB_complete {cid mid : String} {mids : List String} :
    ∀ (pairs : List (String × List String)) (t0 : List (String × CodeComponent)),
      (cid, mids) ∈ pairs → mid ∈ mids → cid ∈ t0.map Prod.fst →
      ∃ c2, (cid, c2) ∈ pairs.foldl (fun comps p =>
          if isKey comps p.1 then
            p.2.foldl (fun cs m => compAddDep cs p.1 m) comps
          else comps) t0 ∧ mid ∈ c2.depends_on := by
  intro pairs
  induction pairs with
  | nil => intro t0 h; simp at h
  | cons pr rest ih =>
    intro t0 hpr hmid hkey
    rw [List.foldl_cons]
    rcases List.mem_cons.mp hpr with hpr | hpr
    · subst hpr
      have hk : isKey t0 cid := isKey_iff.mpr hkey
      rw [if_pos hk]
      exact phaseB_pres rest _ (innerB_est mids _ hkey hmid)
    · by_cases hk : isKey t0 pr.1
      · rw [if_pos hk]
        exact ih _ hpr hmid (by rw [innerB_keys]; exact hkey)
      · rw [if_neg hk]
        exact ih _ hpr hmid hkey

theorem innerB_sound {components : List (String × CodeComponent)} {cid : String} :
    ∀ (ms : List String) (t0 : List (String × CodeComponent)),
      (∀ x ∈ ms, MethodDepOf components x cid) →
      (∀ p ∈ t0, ∃ c, (p.1, c) ∈ components ∧
        ∀ x ∈ p.2.depends_on, x ∈ c.depends_on ∨ MethodDepOf components x p.1) →
      ∀ p ∈ ms.foldl (fun cs m => compAddDep cs cid m) t0,
        ∃ c, (p.1, c) ∈ components ∧
          ∀ x ∈ p.2.depends_on, x ∈ c.depends_on ∨ MethodDepOf components x p.1 := by
  intro ms
  induction ms with
  | nil => intro t0 _ h0; simpa using h0
  | cons m rest ih =>
    intro t0 hms h0
    rw [List.foldl_cons]
    apply ih _ (fun x hx => hms x (List.mem_cons_of_mem _ hx))
    intro p hp
    obtain ⟨c1, hc1, hsub⟩ := compAddDep_sound hp
    obtain ⟨c0, hc0, hsub0⟩ := h0 _ hc1
    refine ⟨c0, hc0, ?_⟩
    intro x hx
    rcases hsub x hx with hx1 | ⟨hx1, hx2⟩
    · exact hsub0 x hx1
    · subst hx1
      exact Or.inr (hx2 ▸ hms x (List.mem_cons_self _ _))

theorem phaseB_sound {components : List (String × CodeComponent)} :
    ∀ (pairs : List (String × List String)) (t0 : List (String × CodeComponent)),
      (∀ pr ∈ pairs, ∀ x ∈ pr.2, MethodDepOf components x pr.1) →
      (∀ p ∈ t0, ∃ c, (p.1, c) ∈ components ∧
        ∀ x ∈ p.2.depends_on, x ∈ c.depends_on ∨ MethodDepOf components x p.1) →
      ∀ p ∈ pairs.foldl (fun comps pr =>
          if isKey comps pr.1 then
            pr.2.foldl (fun cs m => compAddDep cs pr.1 m) comps
          else comps) t0,
        ∃ c, (p.1, c) ∈ components ∧
          ∀ x ∈ p.2.depends_on, x ∈ c.depends_on ∨ MethodDepOf components x p.1 := by
  intro pairs
  induction pairs with
  | nil => intro t0 _ h0; simpa using h0
  | cons pr rest ih =>
    intro t0 hprs h0
    rw [List.foldl_cons]
    apply ih _ (fun q hq => hprs q (List.mem_cons_of_mem _ hq))
    by_cases hk : isKey t0 pr.1
    · rw [if_pos hk]
      exact innerB_sound _ _ (hprs pr (List.mem_cons_self _ _)) h0
    · rw [if_neg hk]
      exact h0

/-- C9: after `_add_class_method_dependencies`, the component registered
under a class id depends on every method component nested under that class
id except `__init__` (part one); and the pass only ever adds dependencies
that are non-`__init__` method components nested under the very component
they are added to, so `__init__` is never added (part two). -/
theorem C9_class_method_attachment (components : List (String × CodeComponent)) :
    (∀ (cid : String) (c : CodeComponent) (mid : String) (m : CodeComponent),
      (cid, c) ∈ components → c.component_type = "class" →
      (mid, m) ∈ components → m.component_type = "method" →
      (pySplitDot mid).length ≥ 2 → parentId mid = cid → lastSeg mid ≠ "__init__" →
      ∃ c2, (cid, c2) ∈ add_class_method_dependencies components ∧
        mid ∈ c2.depends_on) ∧
    (∀ p ∈ add_class_method_dependencies components,
      ∃ c, (p.1, c) ∈ components ∧
        ∀ x ∈ p.2.depends_on, x ∈ c.depends_on ∨ MethodDepOf components x p.1) := by
  constructor
  · intro cid c mid m hc _hcty hm hmty hlen hpid hinit
    unfold add_class_method_dependencies
    have hmem : mid ∈ cmGet (components.foldl (fun cm p =>
        if p.2.component_type == "method" then
          let parts := pySplitDot p.1
          if parts.length ≥ 2 then
            let method_name := parts.getLastD ""
            let class_id := ".".intercalate parts.dropLast
            let cm1 := cmEnsure cm class_id
            if method_name != "__init__" then cmAppend cm1 class_id p.1 else cm1
          else cm
        else cm) []) (parentId mid) :=
      phaseA_complete components [] (Or.inl ⟨⟨m, hm, hmty⟩, hlen, hinit⟩)
    rw [hpid] at hmem
    have hne : cmGet (components.foldl (fun cm p =>
        if p.2.component_type == "method" then
          let parts := pySplitDot p.1
          if parts.length ≥ 2 then
            let method_name := parts.getLastD ""
            let class_id := ".".intercalate parts.dropLast
            let cm1 := cmEnsure cm class_id
            if method_name != "__init__" then cmAppend cm1 class_id p.1 else cm1
          else cm
        else cm) []) cid ≠ [] := by
      intro h
      rw [h] at hmem
      simp at hmem
    have hkey : cid ∈ components.map Prod.fst := List.mem_map_of_mem Prod.fst hc
    exact phaseB_complete _ components (cmGet_mem hne) hmem hkey
  · intro p hp
    unfold add_class_method_dependencies at hp
    refine phaseB_sound _ components ?_ ?_ p hp
    · intro pr hpr x hx
      exact phaseA_sound components components [] (fun e he => he) (by simp) pr hpr x hx
    · intro q hq
      exact ⟨q.2, hq, fun x hx => Or.inl hx⟩

/-- Witness table for C9: a class with one non-constructor method. -/
theorem C9_class_method_attachment_witness :
    ∃ c2, ("m.Foo", c2) ∈ add_class_method_dependencies c9Table ∧
      "m.Foo.bar" ∈ c2.depends_on :=
  (C9_class_method_attachment c9Table).1 "m.Foo" c9ClassComponent
    "m.Foo.bar" c9MethodComponent (List.mem_cons_self _ _) rfl
    (List.mem_cons_of_mem _ (List.mem_cons_self _ _)) rfl
    (by decide) (by decide) (by decide)

/-! ## C2: `resolve_cycles` edge accounting -/

theorem glookup_gremove (g : Graph) (u v x : String) :
    glookup (gremove g u v) x =
      if x = u then (glookup g x).erase v else glookup g x := by
  induction g with
  | nil => by_cases h : x = u <;> simp [gremove, glookup, List.find?, h]
  | cons hd tl ih =>
    obtain ⟨a, b⟩ := hd
    by_cases hax : a = x
    · subst hax
      by_cases hau : a = u
      · subst hau
        simp [gremove, glookup, List.find?_cons_of_pos]
      · unfold gremove glookup
        rw [List.map_cons, if_neg (show ¬ ((a, b).1 == u) = true by simpa using hau)]
        rw [List.find?_cons_of_pos _ (by simp), List.find?_cons_of_pos _ (by simp)]
        simp [hau]
    · have hne : ((a, b).1 == x) = false := by simpa using hax
      by_cases hau : a = u
      · subst hau
        unfold gremove at ih ⊢
        rw [List.map_cons]
        rw [if_pos (by simp)]
        unfold glookup at ih ⊢
        rw [List.find?_cons_of_neg _ (by simpa using hax),
          List.find?_cons_of_neg _ (by simpa using hax)]
        exact ih
      · unfold gremove at ih ⊢
        rw [List.map_cons]
        rw [if_neg (by simpa using hau)]
        unfold glookup at ih ⊢
        rw [List.find?_cons_of_neg _ (by simpa using hax),
          List.find?_cons_of_neg _ (by simpa using hax)]
        exact ih

theorem keysOf_gremove (g : Graph) (u v : String) :
    keysOf (gremove g u v) = keysOf g := by
  unfold keysOf gremove
  rw [List.map_map]
  apply List.map_congr_left
  intro p _
  by_cases h : p.1 = u <;> simp [h]

theorem edgeMem_gremove {g : Graph} {u v a b : String}
    (h : edgeMem (gremove g u v) a b) : edgeMem g a b := by
  unfold edgeMem at h ⊢
  rw [glookup_gremove] at h
  by_cases hau : a = u
  · rw [if_pos hau] at h
    exact (glookup g a).erase_subset v h
  · rw [if_neg hau] at h
    exact h


theorem edgeCount_cons (a : String) (b : List String) (tl : Graph) :
    edgeCount ((a, b) :: tl) = b.length + edgeCount tl := by
  simp [edgeCount]

theorem edgeCount_gremove {g : Graph} {u v : String}
    (hnd : (keysOf g).Nodup) (h : edgeMem g u v) :
    edgeCount (gremove g u v) + 1 = edgeCount g := by
  induction g with
  | nil => unfold edgeMem glookup at h; simp [List.find?] at h
  | cons hd tl ih =>
    obtain ⟨a, b⟩ := hd
    rw [show keysOf ((a, b) :: tl) = a :: keysOf tl from rfl, List.nodup_cons] at hnd
    by_cases hau : a = u
    · subst hau
      have hvb : v ∈ b := by
        unfold edgeMem glookup at h
        rw [List.find?_cons_of_pos _ (by simp)] at h
        simpa using h
      have htl : gremove tl a v = tl := by
        have hcong : ∀ p ∈ tl,
            (if (p.1 == a) = true then (p.1, p.2.erase v) else p) = id p := by
          intro p hp
          have hne : p.1 ≠ a := fun he => hnd.1 (he ▸ List.mem_map_of_mem Prod.fst hp)
          simp [hne]
        unfold gremove
        rw [List.map_congr_left hcong, List.map_id]
      unfold gremove
      rw [List.map_cons, if_pos (by simp)]
      show edgeCount ((a, b.erase v) :: gremove tl a v) + 1 = _
      rw [htl, edgeCount_cons, edgeCount_cons, List.length_erase_of_mem hvb]
      have : 0 < b.length := List.length_pos.mpr (List.ne_nil_of_mem hvb)
      omega
    · unfold edgeMem glookup at h
      rw [List.find?_cons_of_neg _ (by simpa using hau)] at h
      have := ih hnd.2 h
      unfold gremove
      rw [List.map_cons, if_neg (by simpa using hau)]
      show edgeCount ((a, b) :: gremove tl u v) + 1 = _
      rw [edgeCount_cons, edgeCount_cons]
      omega

theorem edgeCount_gremove_le (g : Graph) (u v : String) :
    edgeCount (gremove g u v) ≤ edgeCount g := by
  induction g with
  | nil => simp [gremove, edgeCount]
  | cons hd tl ih =>
    obtain ⟨a, b⟩ := hd
    unfold gremove at ih ⊢
    rw [List.map_cons]
    by_cases hau : a = u
    · rw [if_pos (by simpa using hau)]
      show edgeCount ((a, b.erase v) :: _) ≤ _
      rw [edgeCount_cons, edgeCount_cons]
      have h1 := List.erase_sublist v b |>.length_le
      omega
    · rw [if_neg (by simpa using hau)]
      show edgeCount ((a, b) :: _) ≤ _
      rw [edgeCount_cons, edgeCount_cons]
      omega

theorem breakCycle_cases (g : Graph) (c : List String) :
    breakCycle g c = g ∨
      ∃ u v : String, (u, v) ∈ c.zip c.tail ∧ edgeMem g u v ∧
        breakCycle g c = gremove g u v := by
  unfold breakCycle
  cases hf : (c.zip c.tail).find? (fun pr => pr.2 ∈ glookup g pr.1) with
  | none => exact Or.inl rfl
  | some pr =>
    right
    refine ⟨pr.1, pr.2, List.mem_of_find?_eq_some hf, ?_, rfl⟩
    have := List.find?_some hf
    simpa using this

theorem keysOf_breakCycle (g : Graph) (c : List String) :
    keysOf (breakCycle g c) = keysOf g := by
  rcases breakCycle_cases g c with h | ⟨u, v, _, _, h⟩
  · rw [h]
  · rw [h, keysOf_gremove]

theorem edgeMem_breakCycle {g : Graph} {c : List String} {a b : String}
    (h : edgeMem (breakCycle g c) a b) : edgeMem g a b := by
  rcases breakCycle_cases g c with he | ⟨u, v, _, _, he⟩
  · rwa [he] at h
  · rw [he] at h
    exact edgeMem_gremove h

theorem edgeCount_breakCycle_le (g : Graph) (c : List String) :
    edgeCount (breakCycle g c) ≤ edgeCount g := by
  rcases breakCycle_cases g c with he | ⟨u, v, _, _, he⟩
  · rw [he]
  · rw [he]; exact edgeCount_gremove_le g u v

theorem edgeCount_breakCycle_ge (g : Graph) (c : List String)
    (hnd : (keysOf g).Nodup) :
    edgeCount g ≤ edgeCount (breakCycle g c) + 1 := by
  rcases breakCycle_cases g c with he | ⟨u, v, _, hm, he⟩
  · rw [he]; omega
  · rw [he]
    rw [← edgeCount_gremove hnd hm]

theorem breakCycle_removed {g : Graph} {c : List String} {a b : String}
    (hm : edgeMem g a b) (hn : ¬ edgeMem (breakCycle g c) a b) :
    (a, b) ∈ c.zip c.tail := by
  rcases breakCycle_cases g c with he | ⟨u, v, hzip, _, he⟩
  · rw [he] at hn; exact absurd hm hn
  · rw [he] at hn
    unfold edgeMem at hm hn
    rw [glookup_gremove] at hn
    by_cases hau : a = u
    · subst hau
      rw [if_pos rfl] at hn
      have hbv : b = v := by
        by_contra hne
        exact hn ((List.mem_erase_of_ne hne).mpr hm)
      exact hbv ▸ hzip
    · rw [if_neg hau] at hn
      exact absurd hm hn

theorem foldBreak_subset :
    ∀ (cycles : List (List String)) (g0 : Graph) (a b : String),
      edgeMem (cycles.foldl breakCycle g0) a b → edgeMem g0 a b := by
  intro cycles
  induction cycles with
  | nil => intro g0 a b h; simpa using h
  | cons c rest ih =>
    intro g0 a b h
    rw [List.foldl_cons] at h
    exact edgeMem_breakCycle (ih _ a b h)

theorem foldBreak_keys :
    ∀ (cycles : List (List String)) (g0 : Graph),
      keysOf (cycles.foldl breakCycle g0) = keysOf g0 := by
  intro cycles
  induction cycles with
  | nil => intro g0; rfl
  | cons c rest ih =>
    intro g0
    rw [List.foldl_cons, ih, keysOf_breakCycle]

theorem foldBreak_count_le :
    ∀ (cycles : List (List String)) (g0 : Graph),
      edgeCount (cycles.foldl breakCycle g0) ≤ edgeCount g0 := by
  intro cycles
  induction cycles with
  | nil => intro g0; exact le_refl _
  | cons c rest ih =>
    intro g0
    rw [List.foldl_cons]
    exact le_trans (ih _) (edgeCount_breakCycle_le _ _)

theorem foldBreak_count_ge :
    ∀ (cycles : List (List String)) (g0 : Graph), (keysOf g0).Nodup →
      edgeCount g0 ≤ edgeCount (cycles.foldl breakCycle g0) + cycles.length := by
  intro cycles
  induction cycles with
  | nil => intro g0 _; simp
  | cons c rest ih =>
    intro g0 hnd
    rw [List.foldl_cons, List.length_cons]
    have h1 := edgeCount_breakCycle_ge g0 c hnd
    have h2 := ih (breakCycle g0 c) (by rw [keysOf_breakCycle]; exact hnd)
    omega

theorem foldBreak_removed :
    ∀ (cycles : List (List String)) (g0 : Graph) (a b : String),
      edgeMem g0 a b → ¬ edgeMem (cycles.foldl breakCycle g0) a b →
      ∃ c ∈ cycles, (a, b) ∈ c.zip c.tail := by
  intro cycles
  induction cycles with
  | nil => intro g0 a b hm hn; exact absurd hm hn
  | cons c rest ih =>
    intro g0 a b hm hn
    rw [List.foldl_cons] at hn
    by_cases hs : edgeMem (breakCycle g0 c) a b
    · obtain ⟨c2, hc2, hz⟩ := ih _ a b hs hn
      exact ⟨c2, List.mem_cons_of_mem _ hc2, hz⟩
    · exact ⟨c, List.mem_cons_self _ _, breakCycle_removed hm hs⟩

/-- C2 (amended): `resolve_cycles` never adds an edge; it removes at most
one edge per reported cycle (so the edge count drops by at most the number
of reported cycles — and by zero for a cycle none of whose consecutive
member pairs is still an edge); and every removed edge is a consecutive
pair of some reported cycle's member sequence. -/
theorem C2_amended (g : Graph) (hnd : (keysOf g).Nodup) :
    (∀ u v : String, edgeMem (resolve_cycles g) u v → edgeMem g u v) ∧
    edgeCount (resolve_cycles g) ≤ edgeCount g ∧
    edgeCount g ≤ edgeCount (resolve_cycles g) + (detect_cycles g).length ∧
    (∀ u v : String, edgeMem g u v → ¬ edgeMem (resolve_cycles g) u v →
      ∃ c ∈ detect_cycles g, (u, v) ∈ c.zip c.tail) := by
  unfold resolve_cycles
  by_cases hc : (detect_cycles g).isEmpty
  · rw [if_pos hc]
    refine ⟨fun u v h => h, le_refl _, by omega, fun u v hm hn => absurd hm hn⟩
  · rw [if_neg hc]
    exact ⟨fun u v h => foldBreak_subset _ g u v h,
      foldBreak_count_le _ g,
      foldBreak_count_ge _ g hnd,
      fun u v hm hn => foldBreak_removed _ g u v hm hn⟩

/-- Witness for C2 on the two-node cycle: one cycle is reported and exactly
one edge is removed. -/
theorem C2_amended_witness :
    (keysOf gAB).Nodup ∧
    edgeCount gAB ≤ edgeCount (resolve_cycles gAB) + (detect_cycles gAB).length :=
  ⟨by decide, (C2_amended gAB (by decide)).2.2.1⟩

/-! ## C10 and C1: the traversal machinery -/

theorem sortStr_mem {l : List String} {x : String} : x ∈ sortStr l ↔ x ∈ l :=
  (List.perm_insertionSort _ l).mem_iff

theorem filter_unvis_sublist (g : Graph) {v1 v2 : List String} (h : ∀ x ∈ v1, x ∈ v2) :
    List.Sublist ((mentioned g).filter (fun x => decide (x ∉ v2)))
      ((mentioned g).filter (fun x => decide (x ∉ v1))) := by
  apply List.monotone_filter_right
  intro x hx
  simp only [decide_eq_true_eq] at hx ⊢
  exact fun hm => hx (h x hm)

theorem unvis_mono {g : Graph} {v1 v2 : List String} (h : ∀ x ∈ v1, x ∈ v2) :
    unvis g v2 ≤ unvis g v1 :=
  (filter_unvis_sublist g h).length_le

theorem unvis_lt {g : Graph} {vis : List String} {node : String}
    (hm : node ∈ mentioned g) (hn : node ∉ vis) :
    unvis g (node :: vis) < unvis g vis := by
  unfold unvis
  have hsub := filter_unvis_sublist g (fun x (hx : x ∈ vis) => List.mem_cons_of_mem node hx)
  rcases Nat.lt_or_ge (((mentioned g).filter (fun x => decide (x ∉ node :: vis))).length)
      (((mentioned g).filter (fun x => decide (x ∉ vis))).length) with hlt | hge
  · exact hlt
  · exfalso
    have heq := hsub.eq_of_length (le_antisymm hsub.length_le hge)
    have h1 : node ∈ (mentioned g).filter (fun x => decide (x ∉ vis)) := by
      rw [List.mem_filter]
      exact ⟨hm, by simpa using hn⟩
    rw [← heq, List.mem_filter] at h1
    simp at h1

theorem mem_targets_iff {g : Graph} {x : String} :
    x ∈ g.foldr (fun (p : String × List String) acc => p.2 ++ acc) [] ↔
      ∃ p ∈ g, x ∈ p.2 := by
  induction g with
  | nil => simp
  | cons hd tl ih =>
    rw [List.foldr_cons, List.mem_append, ih]
    constructor
    · rintro (h | ⟨p, hp, hx⟩)
      · exact ⟨hd, List.mem_cons_self _ _, h⟩
      · exact ⟨p, List.mem_cons_of_mem _ hp, hx⟩
    · rintro ⟨p, hp, hx⟩
      rcases List.mem_cons.mp hp with hp | hp
      · exact Or.inl (hp ▸ hx)
      · exact Or.inr ⟨p, hp, hx⟩

theorem mem_mentioned_keys {g : Graph} {x : String} (h : x ∈ keysOf g) :
    x ∈ mentioned g := by
  unfold mentioned
  rw [List.mem_dedup, List.mem_append]
  exact Or.inl h

theorem mem_mentioned_dep {g : Graph} {u d : String} (h : d ∈ glookup g u) :
    d ∈ mentioned g := by
  unfold mentioned
  rw [List.mem_dedup, List.mem_append, mem_targets_iff]
  unfold glookup at h
  cases hf : g.find? (fun p => p.1 == u) with
  | none => rw [hf] at h; simp at h
  | some pr =>
    rw [hf] at h
    exact Or.inr ⟨pr, List.mem_of_find?_eq_some hf, by simpa using h⟩

theorem mentioned_subset_keys {g : Graph} (hcl : Closed g) :
    ∀ x ∈ mentioned g, x ∈ keysOf g := by
  intro x hx
  unfold mentioned at hx
  rw [List.mem_dedup, List.mem_append, mem_targets_iff] at hx
  rcases hx with hx | ⟨p, hp, hx⟩
  · exact hx
  · exact hcl p hp x hx

theorem DfsConcl_refl (g : Graph) (s : List String × List String)
    (hnd : s.1.Nodup) : DfsConcl g s s :=
  ⟨[], [], by simp, by simp, List.Perm.refl _, by simp, by simp, hnd⟩

theorem DfsConcl_vis_mono {g : Graph} {s s2 : List String × List String}
    (h : DfsConcl g s s2) : ∀ x ∈ s.1, x ∈ s2.1 := by
  obtain ⟨nw, pre, _, hvis, _, _, _, _⟩ := h
  intro x hx
  rw [hvis, List.mem_append]
  exact Or.inr hx

theorem DfsConcl_trans {g : Graph} {s t u : List String × List String}
    (h1 : DfsConcl g s t) (h2 : DfsConcl g t u) : DfsConcl g s u := by
  obtain ⟨nw1, pre1, hres1, hvis1, hp1, hf1, hm1, _⟩ := h1
  obtain ⟨nw2, pre2, hres2, hvis2, hp2, hf2, hm2, hnd2⟩ := h2
  refine ⟨nw1 ++ nw2, pre2 ++ pre1, ?_, ?_, ?_, ?_, ?_, hnd2⟩
  · rw [hres2, hres1, List.append_assoc]
  · rw [hvis2, hvis1, List.append_assoc]
  · exact ((hp2.append hp1).trans (List.perm_append_comm)).trans (List.Perm.refl _)
  · intro x hx
    rcases List.mem_append.mp hx with hx | hx
    · exact hf1 x hx
    · intro hxs
      exact hf2 x hx (hvis1 ▸ List.mem_append.mpr (Or.inr hxs))
  · intro x hx
    rcases List.mem_append.mp hx with hx | hx
    · exact hm1 x hx
    · exact hm2 x hx

theorem dfsA_spec :
    ∀ (fuel : Nat) (g : Graph) (s : List String × List String) (node : String),
      unvis g s.1 < fuel → node ∈ mentioned g → s.1.Nodup →
      DfsConcl g s (dfsA fuel g s node) ∧ node ∈ (dfsA fuel g s node).1 := by
  intro fuel
  induction fuel with
  | zero => intro g s node hf; exact absurd hf (by omega)
  | succ f ih =>
    intro g s node hf hnode hnd
    by_cases hv : node ∈ s.1
    · rw [show dfsA (f + 1) g s node = s from by rw [dfsA]; rw [if_pos hv]]
      exact ⟨DfsConcl_refl g s hnd, hv⟩
    · have hstep : dfsA (f + 1) g s node =
          (((sortStr (glookup g node)).foldl (dfsA f g) (node :: s.1, s.2)).1,
           ((sortStr (glookup g node)).foldl (dfsA f g) (node :: s.1, s.2)).2 ++ [node]) := by
        rw [dfsA]; rw [if_neg hv]
      -- the fold over the sorted dependencies
      have hlist : ∀ (ds : List String) (t : List String × List String),
          unvis g t.1 < f → (∀ d ∈ ds, d ∈ mentioned g) → t.1.Nodup →
          DfsConcl g t (ds.foldl (dfsA f g) t) ∧
            ∀ d ∈ ds, d ∈ (ds.foldl (dfsA f g) t).1 := by
        intro ds
        induction ds with
        | nil =>
          intro t htf _ htnd
          exact ⟨DfsConcl_refl g t htnd, by simp⟩
        | cons d rest ihl =>
          intro t htf hds htnd
          rw [List.foldl_cons]
          have h1 := ih g t d htf (hds d (List.mem_cons_self _ _)) htnd
          obtain ⟨hc1, hd1⟩ := h1
          have hsub1 := DfsConcl_vis_mono hc1
          have hnd1 : (dfsA f g t d).1.Nodup := by
            obtain ⟨_, _, _, _, _, _, _, hnd1⟩ := hc1
            exact hnd1
          have h2 := ihl (dfsA f g t d)
            (lt_of_le_of_lt (unvis_mono hsub1) htf)
            (fun x hx => hds x (List.mem_cons_of_mem _ hx)) hnd1
          obtain ⟨hc2, hd2⟩ := h2
          refine ⟨DfsConcl_trans hc1 hc2, ?_⟩
          intro x hx
          rcases List.mem_cons.mp hx with hx | hx
          · exact hx ▸ DfsConcl_vis_mono hc2 d hd1
          · exact hd2 x hx
      have hcons : unvis g (node :: s.1) < f := by
        have h1 := unvis_lt hnode hv
        omega
      have hds : ∀ d ∈ sortStr (glookup g node), d ∈ mentioned g := by
        intro d hd
        exact mem_mentioned_dep (sortStr_mem.mp hd)
      have hndc : (node :: s.1).Nodup := List.nodup_cons.mpr ⟨hv, hnd⟩
      obtain ⟨hcf, hdf⟩ := hlist (sortStr (glookup g node)) (node :: s.1, s.2) hcons hds hndc
      obtain ⟨nwf, pref, hresf, hvisf, hpf, hff, hmf, hndf⟩ := hcf
      rw [hstep]
      constructor
      · refine ⟨nwf ++ [node], pref ++ [node], ?_, ?_, ?_, ?_, ?_, ?_⟩
        · rw [hresf]
          simp [List.append_assoc]
        · rw [hvisf]
          simp
        · exact hpf.append (List.Perm.refl [node])
        · intro x hx
          rcases List.mem_append.mp hx with hx | hx
          · intro hxs
            exact hff x hx (List.mem_cons_of_mem _ hxs)
          · simp at hx
            exact hx ▸ hv
        · intro x hx
          rcases List.mem_append.mp hx with hx | hx
          · exact hmf x hx
          · simp at hx
            exact hx ▸ hnode
        · exact hndf
      · have : node ∈ (node :: s.1 : List String) := List.mem_cons_self _ _
        rw [hvisf]
        exact List.mem_append.mpr (Or.inr this)

theorem dfsList_spec (g : Graph) (fuel : Nat) :
    ∀ (ds : List String) (t : List String × List String),
      unvis g t.1 < fuel → (∀ d ∈ ds, d ∈ mentioned g) → t.1.Nodup →
      DfsConcl g t (ds.foldl (dfsA fuel g) t) ∧
        ∀ d ∈ ds, d ∈ (ds.foldl (dfsA fuel g) t).1 := by
  intro ds
  induction ds with
  | nil =>
    intro t _ _ htnd
    exact ⟨DfsConcl_refl g t htnd, by simp⟩
  | cons d rest ihl =>
    intro t htf hds htnd
    rw [List.foldl_cons]
    obtain ⟨hc1, hd1⟩ := dfsA_spec fuel g t d htf (hds d (List.mem_cons_self _ _)) htnd
    have hsub1 := DfsConcl_vis_mono hc1
    have hnd1 : (dfsA fuel g t d).1.Nodup := by
      obtain ⟨_, _, _, _, _, _, _, hnd1⟩ := hc1
      exact hnd1
    obtain ⟨hc2, hd2⟩ := ihl (dfsA fuel g t d)
      (lt_of_le_of_lt (unvis_mono hsub1) htf)
      (fun x hx => hds x (List.mem_cons_of_mem _ hx)) hnd1
    refine ⟨DfsConcl_trans hc1 hc2, ?_⟩
    intro x hx
    rcases List.mem_cons.mp hx with hx | hx
    · exact hx ▸ DfsConcl_vis_mono hc2 d hd1
    · exact hd2 x hx

theorem unvis_le (g : Graph) (vis : List String) :
    unvis g vis ≤ (mentioned g).length :=
  (List.filter_sublist _).length_le

theorem sweep_fun_eq (g : Graph) (fuel : Nat) (hf : 0 < fuel) :
    (fun (st : List String × List String) n => if n ∈ st.1 then st else dfsA fuel g st n)
      = dfsA fuel g := by
  funext st n
  by_cases h : n ∈ st.1
  · rw [if_pos h]
    cases fuel with
    | zero => omega
    | succ f => rw [dfsA, if_pos h]
  · rw [if_neg h]

theorem rootsOr_subset {g : Graph} : ∀ x ∈ rootsOr g, x ∈ keysOf g := by
  intro x hx
  unfold rootsOr at hx
  by_cases he : ((keysOf g).filter (fun n => !(hasIncoming g n))).isEmpty
  · rw [if_pos he] at hx
    exact (keysOf g).take_subset 1 hx
  · rw [if_neg he] at hx
    exact List.mem_of_mem_filter hx

theorem resolve_keys (g : Graph) : keysOf (resolve_cycles g) = keysOf g := by
  unfold resolve_cycles
  by_cases hc : (detect_cycles g).isEmpty
  · rw [if_pos hc]
  · rw [if_neg hc]
    exact foldBreak_keys _ g

theorem gremove_pairs {g : Graph} {u v : String} {p2 : String × List String}
    (h : p2 ∈ gremove g u v) : ∃ p ∈ g, p2.1 = p.1 ∧ ∀ x ∈ p2.2, x ∈ p.2 := by
  obtain ⟨q, hq, hpq⟩ := List.mem_map.mp h
  by_cases hk : q.1 = u
  · rw [if_pos (by simpa using hk)] at hpq
    refine ⟨q, hq, by rw [← hpq], ?_⟩
    intro x hx
    rw [← hpq] at hx
    exact q.2.erase_subset v hx
  · rw [if_neg (by simpa using hk)] at hpq
    exact ⟨q, hq, by rw [hpq], fun x hx => by rw [← hpq] at hx; exact hx⟩

theorem breakCycle_pairs {g : Graph} {c : List String} {p2 : String × List String}
    (h : p2 ∈ breakCycle g c) : ∃ p ∈ g, p2.1 = p.1 ∧ ∀ x ∈ p2.2, x ∈ p.2 := by
  rcases breakCycle_cases g c with he | ⟨u, v, _, _, he⟩
  · rw [he] at h
    exact ⟨p2, h, rfl, fun x hx => hx⟩
  · rw [he] at h
    exact gremove_pairs h

theorem foldBreak_pairs :
    ∀ (cycles : List (List String)) (g0 : Graph) (p2 : String × List String),
      p2 ∈ cycles.foldl breakCycle g0 →
      ∃ p ∈ g0, p2.1 = p.1 ∧ ∀ x ∈ p2.2, x ∈ p.2 := by
  intro cycles
  induction cycles with
  | nil => intro g0 p2 h; exact ⟨p2, h, rfl, fun x hx => hx⟩
  | cons c rest ih =>
    intro g0 p2 h
    rw [List.foldl_cons] at h
    obtain ⟨p1, hp1, hk1, hs1⟩ := ih _ p2 h
    obtain ⟨p0, hp0, hk0, hs0⟩ := breakCycle_pairs hp1
    exact ⟨p0, hp0, hk1.trans hk0, fun x hx => hs0 x (hs1 x hx)⟩

theorem Closed_resolve {g : Graph} (hcl : Closed g) : Closed (resolve_cycles g) := by
  intro p2 hp2 v hv
  rw [resolve_keys]
  unfold resolve_cycles at hp2
  by_cases hc : (detect_cycles g).isEmpty
  · rw [if_pos hc] at hp2
    exact hcl p2 hp2 v hv
  · rw [if_neg hc] at hp2
    obtain ⟨p, hp, _, hs⟩ := foldBreak_pairs _ g p2 hp2
    exact hcl p hp v (hs v hv)

theorem dependency_first_dfs_eq (g : Graph) :
    dependency_first_dfs g =
      (if ((sortStr (rootsOr (resolve_cycles g))).foldl
            (dfsA (dfsFuel (resolve_cycles g)) (resolve_cycles g)) ([], [])).2.length
          ≠ (resolve_cycles g).length then
        ((sortStr (keysOf (resolve_cycles g))).foldl
          (fun st n => if n ∈ st.1 then st
            else dfsA (dfsFuel (resolve_cycles g)) (resolve_cycles g) st n)
          ((sortStr (rootsOr (resolve_cycles g))).foldl
            (dfsA (dfsFuel (resolve_cycles g)) (resolve_cycles g)) ([], [])))
      else ((sortStr (rootsOr (resolve_cycles g))).foldl
            (dfsA (dfsFuel (resolve_cycles g)) (resolve_cycles g)) ([], []))).2 := rfl

theorem dfsFuel_pos (g : Graph) : 0 < dfsFuel g := Nat.succ_pos _

theorem unvis_lt_fuel (g : Graph) (vis : List String) : unvis g vis < dfsFuel g :=
  Nat.lt_succ_of_le (unvis_le g vis)

/-- The traversal of `dependency_first_dfs` on a closed graph with distinct
keys returns a permutation of the keys of the resolved graph. -/
theorem dfs_perm_keys (g : Graph) (hnd : (keysOf g).Nodup) (hcl : Closed g) :
    (dependency_first_dfs g).Perm (keysOf g) := by
  have hagk : keysOf (resolve_cycles g) = keysOf g := resolve_keys g
  have hagc : Closed (resolve_cycles g) := Closed_resolve hcl
  obtain ⟨hcR, _⟩ := dfsList_spec (resolve_cycles g) (dfsFuel (resolve_cycles g))
    (sortStr (rootsOr (resolve_cycles g))) ([], [])
    (unvis_lt_fuel _ _)
    (fun d hd => mem_mentioned_keys (rootsOr_subset d (sortStr_mem.mp hd)))
    (by simp)
  have hndR : ((sortStr (rootsOr (resolve_cycles g))).foldl
      (dfsA (dfsFuel (resolve_cycles g)) (resolve_cycles g)) ([], [])).1.Nodup := by
    obtain ⟨_, _, _, _, _, _, _, hx⟩ := hcR
    exact hx
  rw [dependency_first_dfs_eq, apply_ite Prod.snd]
  by_cases hlen : ((sortStr (rootsOr (resolve_cycles g))).foldl
      (dfsA (dfsFuel (resolve_cycles g)) (resolve_cycles g)) ([], [])).2.length
      ≠ (resolve_cycles g).length
  · rw [if_pos hlen, sweep_fun_eq _ _ (dfsFuel_pos _)]
    obtain ⟨hcF, hkeysF⟩ := dfsList_spec (resolve_cycles g) (dfsFuel (resolve_cycles g))
      (sortStr (keysOf (resolve_cycles g)))
      ((sortStr (rootsOr (resolve_cycles g))).foldl
        (dfsA (dfsFuel (resolve_cycles g)) (resolve_cycles g)) ([], []))
      (unvis_lt_fuel _ _)
      (fun d hd => mem_mentioned_keys (sortStr_mem.mp hd))
      hndR
    obtain ⟨nw, pre, hres, hvis, hp, _, hm, hndv⟩ := DfsConcl_trans hcR hcF
    simp only [List.nil_append, List.append_nil] at hres hvis
    have hprend : pre.Nodup := by rw [← hvis]; exact hndv
    have hresnodup : nw.Nodup := hp.nodup_iff.mp hprend
    rw [hres]
    have hsub1 : nw ⊆ keysOf g := by
      intro x hx
      rw [← hagk]
      exact mentioned_subset_keys hagc x (hm x hx)
    have hsub2 : keysOf g ⊆ nw := by
      intro x hx
      have hx2 : x ∈ sortStr (keysOf (resolve_cycles g)) :=
        sortStr_mem.mpr (by rw [hagk]; exact hx)
      have hx3 := hkeysF x hx2
      rw [hvis] at hx3
      exact hp.mem_iff.mp hx3
    exact (hresnodup.subperm hsub1).antisymm (hnd.subperm hsub2)
  · rw [if_neg hlen]
    push_neg at hlen
    obtain ⟨nw, pre, hres, hvis, hp, _, hm, hndv⟩ := hcR
    simp only [List.nil_append, List.append_nil] at hres hvis
    have hprend : pre.Nodup := by rw [← hvis]; exact hndv
    have hresnodup : nw.Nodup := hp.nodup_iff.mp hprend
    rw [hres] at hlen ⊢
    have hsub1 : nw ⊆ keysOf g := by
      intro x hx
      rw [← hagk]
      exact mentioned_subset_keys hagc x (hm x hx)
    have hlen2 : (keysOf g).length ≤ nw.length := by
      rw [hlen, ← hagk]
      unfold keysOf
      rw [List.length_map]
    exact (hresnodup.subperm hsub1).perm_of_length_le hlen2

/-- C10 (amended): for every closed input graph (every edge target is a key)
with distinct keys — including graphs that stay cyclic after the best-effort
cycle breaking — `dependency_first_dfs` returns every node exactly once: the
output is a permutation of the key set. -/
theorem C10_amended (g : Graph) (hnd : (keysOf g).Nodup) (hcl : Closed g) :
    (dependency_first_dfs g).Perm (keysOf g) :=
  dfs_perm_keys g hnd hcl

/-- Witness for C10 on the plain three-cycle, which `resolve_cycles` fails
to break (it stays cyclic), yet the output is a permutation of its nodes. -/
theorem C10_amended_witness :
    (keysOf g3).Nodup ∧ Closed g3 ∧ (dependency_first_dfs g3).Perm (keysOf g3) :=
  ⟨by decide, by decide, C10_amended g3 (by decide) (by decide)⟩

theorem PathP_append_edge {g : Graph} {a b c : String}
    (hp : PathP g a b) (he : edgeMem g b c) : PathP g a c := by
  induction hp with
  | single h1 => exact PathP.cons h1 (PathP.single he)
  | cons h1 _ ih => exact PathP.cons h1 (ih he)

theorem idx_append_self {l : List String} {a : String} (h : a ∉ l) :
    (l ++ [a]).indexOf a = l.length := by
  rw [List.indexOf_append_of_not_mem h]
  simp

theorem OrdInv_append {g : Graph} {l : List String} {a : String}
    (ho : OrdInv g l) (ha : a ∉ l) (hd : ∀ d : String, edgeMem g a d → d ∈ l) :
    OrdInv g (l ++ [a]) := by
  intro u v he hu
  rcases List.mem_append.mp hu with hu | hu
  · obtain ⟨hv, hidx⟩ := ho u v he hu
    refine ⟨List.mem_append.mpr (Or.inl hv), ?_⟩
    rw [List.indexOf_append_of_mem hv, List.indexOf_append_of_mem hu]
    exact hidx
  · simp only [List.mem_singleton] at hu
    subst hu
    have hv := hd v he
    refine ⟨List.mem_append.mpr (Or.inl hv), ?_⟩
    rw [List.indexOf_append_of_mem hv, idx_append_self ha]
    exact List.indexOf_lt_length.mpr hv

theorem DfsConcl_gray {g : Graph} {s s2 : List String × List String}
    (h : DfsConcl g s s2) :
    ∀ x : String, (x ∈ s2.1 ∧ x ∉ s2.2) ↔ (x ∈ s.1 ∧ x ∉ s.2) := by
  obtain ⟨nw, pre, hres, hvis, hp, hf, _, _⟩ := h
  intro x
  constructor
  · rintro ⟨hx1, hx2⟩
    rw [hvis, List.mem_append] at hx1
    rw [hres] at hx2
    rcases hx1 with hx1 | hx1
    · exact absurd (List.mem_append.mpr (Or.inr (hp.mem_iff.mp hx1))) hx2
    · exact ⟨hx1, fun hc => hx2 (List.mem_append.mpr (Or.inl hc))⟩
  · rintro ⟨hx1, hx2⟩
    refine ⟨by rw [hvis]; exact List.mem_append.mpr (Or.inr hx1), ?_⟩
    rw [hres, List.mem_append]
    rintro (hc | hc)
    · exact hx2 hc
    · exact hf x hc hx1

theorem DfsConcl_res_sub {g : Graph} {s s2 : List String × List String}
    (h : DfsConcl g s s2) (hsub : ∀ x ∈ s.2, x ∈ s.1) :
    ∀ x ∈ s2.2, x ∈ s2.1 := by
  obtain ⟨nw, pre, hres, hvis, hp, _, _, _⟩ := h
  intro x hx
  rw [hres, List.mem_append] at hx
  rw [hvis, List.mem_append]
  rcases hx with hx | hx
  · exact Or.inr (hsub x hx)
  · exact Or.inl (hp.mem_iff.mpr hx)

theorem dfsA_ord {g : Graph} (hacyc : Acyclic g) :
    ∀ (fuel : Nat) (s : List String × List String) (node : String),
      unvis g s.1 < fuel → node ∈ mentioned g → s.1.Nodup →
      (∀ x ∈ s.2, x ∈ s.1) →
      (∀ x ∈ s.1, x ∉ s.2 → PathP g x node) →
      OrdInv g s.2 →
      OrdInv g (dfsA fuel g s node).2 := by
  intro fuel
  induction fuel with
  | zero => intro s node hf; exact absurd hf (by omega)
  | succ f ih =>
    intro s node hf hnode hnd hsub hgray hord
    by_cases hv : node ∈ s.1
    · rw [show dfsA (f + 1) g s node = s from by rw [dfsA]; rw [if_pos hv]]
      exact hord
    · have hnode_ns : node ∉ s.2 := fun hc => hv (hsub node hc)
      have hstep : dfsA (f + 1) g s node =
          (((sortStr (glookup g node)).foldl (dfsA f g) (node :: s.1, s.2)).1,
           ((sortStr (glookup g node)).foldl (dfsA f g) (node :: s.1, s.2)).2 ++ [node]) := by
        rw [dfsA]; rw [if_neg hv]
      rw [hstep]
      have hlist : ∀ (ds : List String) (t : List String × List String),
          unvis g t.1 < f → (∀ d ∈ ds, d ∈ mentioned g) → t.1.Nodup →
          (∀ x ∈ t.2, x ∈ t.1) →
          (∀ x ∈ t.1, x ∉ t.2 → x = node ∨ PathP g x node) →
          (∀ d ∈ ds, edgeMem g node d) →
          OrdInv g t.2 →
          OrdInv g (ds.foldl (dfsA f g) t).2 := by
        intro ds
        induction ds with
        | nil => intro t _ _ _ _ _ _ h; simpa using h
        | cons d rest ihl =>
          intro t htf hds htnd htsub htgray hedge htord
          rw [List.foldl_cons]
          obtain ⟨hc1, _⟩ := dfsA_spec f g t d htf (hds d (List.mem_cons_self _ _)) htnd
          have hnd1 : (dfsA f g t d).1.Nodup := by
            obtain ⟨_, _, _, _, _, _, _, h⟩ := hc1
            exact h
          have hord1 := ih t d htf (hds d (List.mem_cons_self _ _)) htnd htsub
            (fun x hx1 hx2 => by
              rcases htgray x hx1 hx2 with he | hp
              · exact he ▸ PathP.single (hedge d (List.mem_cons_self _ _))
              · exact PathP_append_edge hp (hedge d (List.mem_cons_self _ _)))
            htord
          exact ihl (dfsA f g t d)
            (lt_of_le_of_lt (unvis_mono (DfsConcl_vis_mono hc1)) htf)
            (fun x hx => hds x (List.mem_cons_of_mem _ hx)) hnd1
            (DfsConcl_res_sub hc1 htsub)
            (fun x hx1 hx2 =>
              htgray x ((DfsConcl_gray hc1 x).mp ⟨hx1, hx2⟩).1
                ((DfsConcl_gray hc1 x).mp ⟨hx1, hx2⟩).2)
            (fun x hx => hedge x (List.mem_cons_of_mem _ hx)) hord1
      have hcons : unvis g (node :: s.1) < f := by
        have := unvis_lt hnode hv
        omega
      have hds : ∀ d ∈ sortStr (glookup g node), d ∈ mentioned g :=
        fun d hd => mem_mentioned_dep (sortStr_mem.mp hd)
      have hndc : (node :: s.1).Nodup := List.nodup_cons.mpr ⟨hv, hnd⟩
      have hsub0 : ∀ x ∈ s.2, x ∈ (node :: s.1 : List String) :=
        fun x hx => List.mem_cons_of_mem _ (hsub x hx)
      have hgray0 : ∀ x ∈ (node :: s.1 : List String), x ∉ s.2 →
          x = node ∨ PathP g x node := by
        intro x hx1 hx2
        rcases List.mem_cons.mp hx1 with hx1 | hx1
        · exact Or.inl hx1
        · exact Or.inr (hgray x hx1 hx2)
      have hedge0 : ∀ d ∈ sortStr (glookup g node), edgeMem g node d :=
        fun d hd => sortStr_mem.mp hd
      have hordf := hlist (sortStr (glookup g node)) (node :: s.1, s.2)
        hcons hds hndc hsub0 hgray0 hedge0 hord
      obtain ⟨hcF, hdF⟩ := dfsList_spec g f (sortStr (glookup g node)) (node :: s.1, s.2)
        hcons hds hndc
      have hgrayF := DfsConcl_gray hcF
      have hnode_gray := (hgrayF node).mpr ⟨List.mem_cons_self _ _, hnode_ns⟩
      have hdep_res : ∀ dd : String, edgeMem g node dd →
          dd ∈ ((sortStr (glookup g node)).foldl (dfsA f g) (node :: s.1, s.2)).2 := by
        intro dd hde
        have hdd1 := hdF dd (sortStr_mem.mpr hde)
        by_contra hc
        have hg := (hgrayF dd).mp ⟨hdd1, hc⟩
        rcases hgray0 dd hg.1 hg.2 with he | hp
        · subst he
          exact hacyc dd (PathP.single hde)
        · exact hacyc dd (PathP_append_edge hp hde)
      exact OrdInv_append hordf hnode_gray.2 hdep_res

theorem OrdInv_nil (g : Graph) : OrdInv g [] := by
  intro u v _ hu
  simp at hu

theorem dfsList_ord_top {g : Graph} (hacyc : Acyclic g) (fuel : Nat) :
    ∀ (ds : List String) (t : List String × List String),
      unvis g t.1 < fuel → (∀ d ∈ ds, d ∈ mentioned g) → t.1.Nodup →
      (∀ x ∈ t.2, x ∈ t.1) → (∀ x ∈ t.1, x ∈ t.2) →
      OrdInv g t.2 →
      OrdInv g (ds.foldl (dfsA fuel g) t).2 ∧
      (∀ x ∈ (ds.foldl (dfsA fuel g) t).1, x ∈ (ds.foldl (dfsA fuel g) t).2) := by
  intro ds
  induction ds with
  | nil =>
    intro t _ _ _ _ hng h
    exact ⟨h, hng⟩
  | cons d rest ihl =>
    intro t htf hds htnd htsub htng htord
    rw [List.foldl_cons]
    obtain ⟨hc1, _⟩ := dfsA_spec fuel g t d htf (hds d (List.mem_cons_self _ _)) htnd
    have hnd1 : (dfsA fuel g t d).1.Nodup := by
      obtain ⟨_, _, _, _, _, _, _, h⟩ := hc1
      exact h
    have hord1 := dfsA_ord hacyc fuel t d htf (hds d (List.mem_cons_self _ _)) htnd htsub
      (fun x hx1 hx2 => absurd (htng x hx1) hx2) htord
    have hng1 : ∀ x ∈ (dfsA fuel g t d).1, x ∈ (dfsA fuel g t d).2 := by
      intro x hx1
      by_contra hx2
      have := (DfsConcl_gray hc1 x).mp ⟨hx1, hx2⟩
      exact this.2 (htng x this.1)
    exact ihl (dfsA fuel g t d)
      (lt_of_le_of_lt (unvis_mono (DfsConcl_vis_mono hc1)) htf)
      (fun x hx => hds x (List.mem_cons_of_mem _ hx)) hnd1
      (DfsConcl_res_sub hc1 htsub) hng1 hord1

/-- On acyclic resolved graphs the traversal output respects dependencies. -/
theorem dfs_ord (g : Graph) (hacyc : Acyclic (resolve_cycles g)) :
    OrdInv (resolve_cycles g) (dependency_first_dfs g) := by
  obtain ⟨hordR, hnogrR⟩ := dfsList_ord_top hacyc (dfsFuel (resolve_cycles g))
    (sortStr (rootsOr (resolve_cycles g))) ([], [])
    (unvis_lt_fuel _ _)
    (fun d hd => mem_mentioned_keys (rootsOr_subset d (sortStr_mem.mp hd)))
    (by simp) (by simp) (by simp)
    (OrdInv_nil _)
  obtain ⟨hcR, _⟩ := dfsList_spec (resolve_cycles g) (dfsFuel (resolve_cycles g))
    (sortStr (rootsOr (resolve_cycles g))) ([], [])
    (unvis_lt_fuel _ _)
    (fun d hd => mem_mentioned_keys (rootsOr_subset d (sortStr_mem.mp hd)))
    (by simp)
  have hndR : ((sortStr (rootsOr (resolve_cycles g))).foldl
      (dfsA (dfsFuel (resolve_cycles g)) (resolve_cycles g)) ([], [])).1.Nodup := by
    obtain ⟨_, _, _, _, _, _, _, hx⟩ := hcR
    exact hx
  have hsubR := DfsConcl_res_sub hcR (by simp)
  rw [dependency_first_dfs_eq, apply_ite Prod.snd]
  by_cases hlen : ((sortStr (rootsOr (resolve_cycles g))).foldl
      (dfsA (dfsFuel (resolve_cycles g)) (resolve_cycles g)) ([], [])).2.length
      ≠ (resolve_cycles g).length
  · rw [if_pos hlen, sweep_fun_eq _ _ (dfsFuel_pos _)]
    obtain ⟨hordF, _⟩ := dfsList_ord_top hacyc (dfsFuel (resolve_cycles g))
      (sortStr (keysOf (resolve_cycles g)))
      ((sortStr (rootsOr (resolve_cycles g))).foldl
        (dfsA (dfsFuel (resolve_cycles g)) (resolve_cycles g)) ([], []))
      (unvis_lt_fuel _ _)
      (fun d hd => mem_mentioned_keys (sortStr_mem.mp hd))
      hndR hsubR hnogrR hordR
    exact hordF
  · rw [if_neg hlen]
    exact hordR

/-- C1 (amended): for every closed input graph (every edge target is a key)
with distinct keys on which `resolve_cycles` produces an acyclic graph, the
list `dependency_first_dfs` returns is a permutation of all node ids, and
for every surviving edge `u → v` the position of `v` strictly precedes the
position of `u`. -/
theorem C1_amended (g : Graph) (hnd : (keysOf g).Nodup) (hcl : Closed g)
    (hacyc : Acyclic (resolve_cycles g)) :
    (dependency_first_dfs g).Perm (keysOf g) ∧
    ∀ u v : String, edgeMem (resolve_cycles g) u v →
      (dependency_first_dfs g).indexOf v < (dependency_first_dfs g).indexOf u := by
  have hperm := dfs_perm_keys g hnd hcl
  refine ⟨hperm, ?_⟩
  intro u v he
  have hu : u ∈ keysOf g := by
    rw [← resolve_keys g]
    exact edge_key he
  exact (dfs_ord g hacyc u v he (hperm.mem_iff.mpr hu)).2

/-- Witness for C1 on the closed acyclic graph `{A: {B}, B: {}}`. -/
theorem C1_amended_witness :
    (keysOf gSimple).Nodup ∧ Closed gSimple ∧ Acyclic (resolve_cycles gSimple) ∧
    (dependency_first_dfs gSimple).indexOf "B"
      < (dependency_first_dfs gSimple).indexOf "A" := by
  have hacyc : Acyclic (resolve_cycles gSimple) := by
    have h : resolve_cycles gSimple = gSimple := by decide
    rw [h]
    exact acyclic_of_rank _ (fun s => if s = "A" then 1 else 0) (by decide)
  exact ⟨by decide, by decide, hacyc,
    (C1_amended gSimple (by decide) (by decide) hacyc).2 "A" "B" (by decide)⟩

/-! ## C3: correctness of `detect_cycles` -/

theorem lget_cons (k : String) (n : Nat) (m : List (String × Nat)) (k2 : String) :
    lget ((k, n) :: m) k2 = if k2 = k then some n else lget m k2 := by
  by_cases h : k2 = k
  · subst h
    simp [lget, List.find?_cons_of_pos]
  · rw [if_neg h]
    unfold lget
    rw [List.find?_cons_of_neg _ (by simpa using fun he => h he.symm)]

theorem unidx_mono {g : Graph} {st st2 : TJ}
    (h : ∀ x : String, (lget st.index x).isSome → (lget st2.index x).isSome) :
    unidx g st2 ≤ unidx g st := by
  unfold unidx
  apply List.Sublist.length_le
  apply List.monotone_filter_right
  intro x hx
  rw [Option.isNone_iff_eq_none] at hx ⊢
  cases h2 : lget st.index x with
  | none => rfl
  | some i =>
    have := h x (by simp [h2])
    rw [hx] at this
    simp at this

theorem unidx_lt {g : Graph} {st st2 : TJ} {v : String}
    (h : ∀ x : String, (lget st.index x).isSome → (lget st2.index x).isSome)
    (hm : v ∈ mentioned g) (hni : lget st.index v = none)
    (hi2 : (lget st2.index v).isSome) :
    unidx g st2 < unidx g st := by
  unfold unidx
  have hsub : List.Sublist ((mentioned g).filter (fun x => (lget st2.index x).isNone))
      ((mentioned g).filter (fun x => (lget st.index x).isNone)) := by
    apply List.monotone_filter_right
    intro x hx
    rw [Option.isNone_iff_eq_none] at hx ⊢
    cases h2 : lget st.index x with
    | none => rfl
    | some i =>
      have := h x (by simp [h2])
      rw [hx] at this
      simp at this
  rcases Nat.lt_or_ge (((mentioned g).filter (fun x => (lget st2.index x).isNone)).length)
      (((mentioned g).filter (fun x => (lget st.index x).isNone)).length) with hlt | hge
  · exact hlt
  · exfalso
    have heq := hsub.eq_of_length (le_antisymm hsub.length_le hge)
    have h1 : v ∈ (mentioned g).filter (fun x => (lget st.index x).isNone) := by
      rw [List.mem_filter]
      exact ⟨hm, by simp [hni]⟩
    rw [← heq, List.mem_filter] at h1
    rw [Option.isSome_iff_ne_none] at hi2
    have := h1.2
    rw [Option.isNone_iff_eq_none] at this
    exact hi2 this

theorem tjPop_index (st : TJ) (v : String) : (tjPop st v).index = st.index := by
  unfold tjPop
  split <;> rfl

theorem tjPop_lowlink (st : TJ) (v : String) : (tjPop st v).lowlink = st.lowlink := by
  unfold tjPop
  split <;> rfl

theorem tjPop_counter (st : TJ) (v : String) : (tjPop st v).counter = st.counter := by
  unfold tjPop
  split <;> rfl

theorem tjPop_result (st : TJ) (v : String) :
    ∃ suf, (tjPop st v).result = st.result ++ suf := by
  unfold tjPop
  by_cases h : (lget st.lowlink v == lget st.index v) = true
  · rw [if_pos h]
    by_cases h2 : (popScc st.stack v).1.length > 1
    · exact ⟨[(popScc st.stack v).1], by simp [h2]⟩
    · exact ⟨[], by simp [h2]⟩
  · rw [if_neg h]
    exact ⟨[], by simp⟩

theorem sc_basic :
    ∀ (fuel : Nat) (g : Graph) (st : TJ) (v : String),
      unidx g st < fuel → v ∈ mentioned g → lget st.index v = none →
      (∃ suf, (strongconnect fuel g st v).result = st.result ++ suf) ∧
      (∀ x i, lget st.index x = some i → lget (strongconnect fuel g st v).index x = some i) ∧
      (∀ x, (lget st.index x).isSome →
        lget (strongconnect fuel g st v).lowlink x = lget st.lowlink x) ∧
      lget (strongconnect fuel g st v).index v = some st.counter ∧
      st.counter < (strongconnect fuel g st v).counter := by
  intro fuel
  induction fuel with
  | zero => intro g st v hf; exact absurd hf (by omega)
  | succ f ih =>
    intro g st v hf hv hni
    rw [strongconnect]
    -- facts about the pushed state
    have hp_idx : lget (tjPush st v).index v = some st.counter := by
      unfold tjPush
      simp [lget_cons]
    have hp_old : ∀ x i, lget st.index x = some i → lget (tjPush st v).index x = some i := by
      intro x i hx
      unfold tjPush
      simp only [lget_cons]
      rw [if_neg (fun he => by rw [he, hni] at hx; exact Option.noConfusion hx)]
      exact hx
    have hp_low : ∀ x, x ≠ v → lget (tjPush st v).lowlink x = lget st.lowlink x := by
      intro x hx
      unfold tjPush
      simp only [lget_cons]
      rw [if_neg hx]
    have hgrow1 : ∀ x : String, (lget st.index x).isSome → (lget (tjPush st v).index x).isSome := by
      intro x hx
      rw [Option.isSome_iff_exists] at hx
      obtain ⟨i, hi⟩ := hx
      rw [hp_old x i hi]
      simp
    have hfuel1 : unidx g (tjPush st v) < f := by
      have h1 : unidx g (tjPush st v) < unidx g st :=
        unidx_lt hgrow1 hv hni (by rw [hp_idx]; simp)
      omega
    -- the successor loop, by induction on the remaining successors
    have hfold : ∀ (ws : List String) (t : TJ),
        (∀ w ∈ ws, w ∈ glookup g v) →
        unidx g t < f →
        (∃ suf, t.result = (tjPush st v).result ++ suf) →
        (∀ x i, lget (tjPush st v).index x = some i → lget t.index x = some i) →
        (∀ x, (lget (tjPush st v).index x).isSome → x ≠ v →
          lget t.lowlink x = lget (tjPush st v).lowlink x) →
        (tjPush st v).counter ≤ t.counter →
        (∃ suf, (ws.foldl (tjStep (strongconnect f g) v) t).result
            = (tjPush st v).result ++ suf) ∧
        (∀ x i, lget (tjPush st v).index x = some i →
          lget (ws.foldl (tjStep (strongconnect f g) v) t).index x = some i) ∧
        (∀ x, (lget (tjPush st v).index x).isSome → x ≠ v →
          lget (ws.foldl (tjStep (strongconnect f g) v) t).lowlink x
            = lget (tjPush st v).lowlink x) ∧
        (tjPush st v).counter ≤ (ws.foldl (tjStep (strongconnect f g) v) t).counter := by
      intro ws
      induction ws with
      | nil =>
        intro t _ hft hres hidx hlow hcnt
        exact ⟨hres, hidx, fun x hx hxv => hlow x hx hxv, hcnt⟩
      | cons w rest ihw =>
        intro t hws hft hres hidx hlow hcnt
        rw [List.foldl_cons]
        have hw_dep : w ∈ glookup g v := hws w (List.mem_cons_self _ _)
        have hw_ment : w ∈ mentioned g := mem_mentioned_dep hw_dep
        -- one tjStep
        unfold tjStep
        by_cases hwi : (lget t.index w).isNone
        · rw [if_pos hwi]
          obtain ⟨hsres, hsidx, hslow, hsv, hscnt⟩ :=
            ih g t w hft hw_ment (Option.isNone_iff_eq_none.mp hwi)
          apply ihw
          · exact fun x hx => hws x (List.mem_cons_of_mem _ hx)
          · -- fuel: the sub-call indexed w, so unindexed count keeps shrinking
            apply lt_of_le_of_lt ?_ hft
            apply unidx_mono
            intro x hx
            rw [Option.isSome_iff_exists] at hx
            obtain ⟨i, hi⟩ := hx
            show (lget (strongconnect f g t w).index x).isSome = true
            rw [hsidx x i hi]
            rfl
          · obtain ⟨suf0, hsuf0⟩ := hres
            obtain ⟨suf1, hsuf1⟩ := hsres
            exact ⟨suf0 ++ suf1, by
              show (strongconnect f g t w).result = _
              rw [hsuf1, hsuf0, List.append_assoc]⟩
          · intro x i hx
            show lget (strongconnect f g t w).index x = some i
            exact hsidx x i (hidx x i hx)
          · intro x hx hxv
            show lget ((v, _) :: (strongconnect f g t w).lowlink) x
              = lget (tjPush st v).lowlink x
            rw [lget_cons, if_neg hxv]
            rw [hslow x (by
              rw [Option.isSome_iff_exists] at hx
              obtain ⟨i, hi⟩ := hx
              rw [hidx x i hi]
              simp)]
            exact hlow x hx hxv
          · show (tjPush st v).counter ≤ (strongconnect f g t w).counter
            omega
        · rw [if_neg hwi]
          by_cases hwo : w ∈ t.onstack
          · rw [if_pos hwo]
            apply ihw
            · exact fun x hx => hws x (List.mem_cons_of_mem _ hx)
            · exact hft
            · exact hres
            · exact hidx
            · intro x hx hxv
              show lget ((v, _) :: t.lowlink) x = lget (tjPush st v).lowlink x
              rw [lget_cons, if_neg hxv]
              exact hlow x hx hxv
            · exact hcnt
          · rw [if_neg hwo]
            exact ihw t (fun x hx => hws x (List.mem_cons_of_mem _ hx))
              hft hres hidx hlow hcnt
    obtain ⟨hfres, hfidx, hflow, hfcnt⟩ := hfold (glookup g v) (tjPush st v)
      (fun w hw => hw) hfuel1 ⟨[], by simp⟩ (fun x i h => h) (fun x _ _ => rfl) (le_refl _)
    constructor
    · obtain ⟨suf1, hsuf1⟩ := hfres
      obtain ⟨suf2, hsuf2⟩ := tjPop_result
        ((glookup g v).foldl (tjStep (strongconnect f g) v) (tjPush st v)) v
      refine ⟨suf1 ++ suf2, ?_⟩
      rw [hsuf2, hsuf1]
      show ((tjPush st v).result ++ suf1) ++ suf2 = st.result ++ (suf1 ++ suf2)
      rw [show (tjPush st v).result = st.result from rfl, List.append_assoc]
    constructor
    · intro x i hx
      rw [tjPop_index]
      exact hfidx x i (hp_old x i hx)
    constructor
    · intro x hx
      rw [tjPop_lowlink]
      have hxv : x ≠ v := by
        intro he
        rw [he, hni] at hx
        simp at hx
      rw [hflow x (by
        rw [Option.isSome_iff_exists] at hx
        obtain ⟨i, hi⟩ := hx
        rw [hp_old x i hi]
        simp) hxv]
      exact hp_low x hxv
    constructor
    · rw [tjPop_index]
      exact hfidx v st.counter hp_idx
    · rw [tjPop_counter]
      have : (tjPush st v).counter = st.counter + 1 := rfl
      omega

theorem sc_acyclic {g : Graph} (hacyc : Acyclic g) :
    ∀ (fuel : Nat) (st : TJ) (v : String),
      unidx g st < fuel → v ∈ mentioned g → lget st.index v = none →
      (∀ x ∈ st.onstack, (lget st.index x).isSome) →
      (∀ x i, lget st.index x = some i → i < st.counter) →
      (∀ x ∈ st.onstack, PathP g x v) →
      (strongconnect fuel g st v).result = st.result ∧
      (strongconnect fuel g st v).stack = st.stack ∧
      (strongconnect fuel g st v).onstack = st.onstack ∧
      lget (strongconnect fuel g st v).lowlink v = some st.counter ∧
      (∀ x i, lget (strongconnect fuel g st v).index x = some i →
        i < (strongconnect fuel g st v).counter) := by
  intro fuel
  induction fuel with
  | zero => intro st v hf; exact absurd hf (by omega)
  | succ f ih =>
    intro st v hf hv hni honi hfresh hgray
    rw [strongconnect]
    have hvno : v ∉ st.onstack := by
      intro hc
      have := honi v hc
      rw [hni] at this
      simp at this
    have hp_idx : lget (tjPush st v).index v = some st.counter := by
      unfold tjPush
      simp [lget_cons]
    have hp_low : lget (tjPush st v).lowlink v = some st.counter := by
      unfold tjPush
      simp [lget_cons]
    have hp_old : ∀ x i, lget st.index x = some i → lget (tjPush st v).index x = some i := by
      intro x i hx
      unfold tjPush
      simp only [lget_cons]
      rw [if_neg (fun he => by rw [he, hni] at hx; exact Option.noConfusion hx)]
      exact hx
    have hgrow1 : ∀ x : String, (lget st.index x).isSome →
        (lget (tjPush st v).index x).isSome := by
      intro x hx
      rw [Option.isSome_iff_exists] at hx
      obtain ⟨i, hi⟩ := hx
      rw [hp_old x i hi]
      simp
    have hfuel1 : unidx g (tjPush st v) < f := by
      have h1 : unidx g (tjPush st v) < unidx g st :=
        unidx_lt hgrow1 hv hni (by rw [hp_idx]; simp)
      omega
    have hfold : ∀ (ws : List String) (t : TJ),
        (∀ w ∈ ws, w ∈ glookup g v) →
        t.result = st.result →
        t.stack = v :: st.stack →
        t.onstack = v :: st.onstack →
        lget t.index v = some st.counter →
        lget t.lowlink v = some st.counter →
        (∀ x i, lget t.index x = some i → i < t.counter) →
        (∀ x ∈ t.onstack, (lget t.index x).isSome) →
        st.counter < t.counter →
        unidx g t < f →
        (ws.foldl (tjStep (strongconnect f g) v) t).result = st.result ∧
        (ws.foldl (tjStep (strongconnect f g) v) t).stack = v :: st.stack ∧
        (ws.foldl (tjStep (strongconnect f g) v) t).onstack = v :: st.onstack ∧
        lget (ws.foldl (tjStep (strongconnect f g) v) t).index v = some st.counter ∧
        lget (ws.foldl (tjStep (strongconnect f g) v) t).lowlink v = some st.counter ∧
        (∀ x i, lget (ws.foldl (tjStep (strongconnect f g) v) t).index x = some i →
          i < (ws.foldl (tjStep (strongconnect f g) v) t).counter) := by
      intro ws
      induction ws with
      | nil =>
        intro t _ h1 h2 h3 h4 h5 h6 _ _ _
        exact ⟨h1, h2, h3, h4, h5, h6⟩
      | cons w rest ihw =>
        intro t hws hres hstk hons hiv hlv hfr honi2 hcnt hft
        rw [List.foldl_cons]
        have hw_dep : w ∈ glookup g v := hws w (List.mem_cons_self _ _)
        have hw_edge : edgeMem g v w := hw_dep
        have hw_ment : w ∈ mentioned g := mem_mentioned_dep hw_dep
        unfold tjStep
        by_cases hwi : (lget t.index w).isNone
        · rw [if_pos hwi]
          have hwn := Option.isNone_iff_eq_none.mp hwi
          -- gray set for the nested call
          have hgray2 : ∀ x ∈ t.onstack, PathP g x w := by
            intro x hx
            rw [hons] at hx
            rcases List.mem_cons.mp hx with hx | hx
            · exact hx ▸ PathP.single hw_edge
            · exact PathP_append_edge (hgray x hx) hw_edge
          obtain ⟨hares, hastk, haons, halow, hafr⟩ :=
            ih t w hft hw_ment hwn honi2 hfr hgray2
          obtain ⟨_, hsidx, hslow, hsiw, hscnt⟩ := sc_basic f g t w hft hw_ment hwn
          -- the lowlink value merged in is t.counter, whose min with
          -- st.counter is st.counter
          have hlvsub : lget (strongconnect f g t w).lowlink v = some st.counter := by
            rw [hslow v (by rw [hiv]; simp)]
            exact hlv
          have hmin : min ((lget (strongconnect f g t w).lowlink v).getD 0)
              ((lget (strongconnect f g t w).lowlink w).getD 0) = st.counter := by
            rw [hlvsub, halow]
            simp
            omega
          apply ihw
          · exact fun x hx => hws x (List.mem_cons_of_mem _ hx)
          · show (strongconnect f g t w).result = st.result
            rw [hares, hres]
          · show (strongconnect f g t w).stack = v :: st.stack
            rw [hastk, hstk]
          · show (strongconnect f g t w).onstack = v :: st.onstack
            rw [haons, hons]
          · show lget (strongconnect f g t w).index v = some st.counter
            exact hsidx v st.counter hiv
          · show lget ((v, min ((lget (strongconnect f g t w).lowlink v).getD 0)
              ((lget (strongconnect f g t w).lowlink w).getD 0))
                :: (strongconnect f g t w).lowlink) v = some st.counter
            rw [lget_cons, if_pos rfl, hmin]
          · intro x i hx
            exact hafr x i hx
          · intro x hx
            show (lget (strongconnect f g t w).index x).isSome = true
            rw [haons] at hx
            have := honi2 x hx
            rw [Option.isSome_iff_exists] at this
            obtain ⟨i, hi⟩ := this
            rw [hsidx x i hi]
            simp
          · show st.counter < (strongconnect f g t w).counter
            omega
          · show unidx g (strongconnect f g t w) < f
            apply lt_of_le_of_lt ?_ hft
            apply unidx_mono
            intro x hx
            rw [Option.isSome_iff_exists] at hx
            obtain ⟨i, hi⟩ := hx
            rw [hsidx x i hi]
            rfl
        · rw [if_neg hwi]
          by_cases hwo : w ∈ t.onstack
          · exfalso
            rw [hons] at hwo
            rcases List.mem_cons.mp hwo with hwo | hwo
            · exact hacyc v (PathP.single (hwo ▸ hw_edge))
            · exact hacyc w (PathP_append_edge (hgray w hwo) hw_edge)
          · rw [if_neg hwo]
            exact ihw t (fun x hx => hws x (List.mem_cons_of_mem _ hx))
              hres hstk hons hiv hlv hfr honi2 hcnt hft
    have hpush_fr : ∀ x i, lget (tjPush st v).index x = some i →
        i < (tjPush st v).counter := by
      intro x i hx
      show i < st.counter + 1
      by_cases hxv : x = v
      · rw [hxv, hp_idx] at hx
        injection hx with hx
        omega
      · unfold tjPush at hx
        simp only [lget_cons] at hx
        rw [if_neg hxv] at hx
        have := hfresh x i hx
        omega
    have hpush_oni : ∀ x ∈ (tjPush st v).onstack, (lget (tjPush st v).index x).isSome := by
      intro x hx
      rcases List.mem_cons.mp hx with hx | hx
      · rw [hx, hp_idx]
        simp
      · exact hgrow1 x (honi x hx)
    obtain ⟨hfres, hfstk, hfons, hfiv, hflv, hffr⟩ := hfold (glookup g v) (tjPush st v)
      (fun w hw => hw) rfl rfl rfl hp_idx hp_low hpush_fr hpush_oni
      (Nat.lt_succ_self _) hfuel1
    -- the pop: lowlink[v] = index[v], and the popped scc is the singleton [v]
    set st2 := (glookup g v).foldl (tjStep (strongconnect f g) v) (tjPush st v) with hst2
    have hguard : (lget st2.lowlink v == lget st2.index v) = true := by
      rw [hflv, hfiv]
      simp
    have hpop : popScc st2.stack v = ([v], st.stack) := by
      rw [hfstk]
      unfold popScc
      simp
    have honsfilter : st2.onstack.filter (fun x => !((popScc st2.stack v).1.contains x))
        = st.onstack := by
      rw [hpop, hfons]
      show (v :: st.onstack).filter (fun x => !([v].contains x)) = st.onstack
      rw [List.filter_cons]
      rw [if_neg (by simp)]
      apply List.filter_eq_self.mpr
      intro a ha
      have hav : a ≠ v := by
        intro he
        exact hvno (he ▸ ha)
      simp [hav]
    unfold tjPop
    rw [if_pos hguard]
    refine ⟨?_, ?_, ?_, ?_, ?_⟩
    · show (if (popScc st2.stack v).1.length > 1 then st2.result ++ [(popScc st2.stack v).1]
        else st2.result) = st.result
      rw [hpop]
      simp only [List.length_singleton]
      rw [if_neg (by omega)]
      exact hfres
    · show (popScc st2.stack v).2 = st.stack
      rw [hpop]
    · exact honsfilter
    · exact hflv
    · exact hffr

theorem detect_cycles_acyclic {g : Graph} (hacyc : Acyclic g) :
    detect_cycles g = [] := by
  unfold detect_cycles
  suffices h : ∀ (ks : List String) (st : TJ),
      (∀ k ∈ ks, k ∈ mentioned g) →
      st.result = [] → st.onstack = [] →
      (∀ x i, lget st.index x = some i → i < st.counter) →
      (ks.foldl (fun st v =>
        if (lget st.index v).isNone then strongconnect (tarjanFuel g) g st v else st)
        st).result = [] by
    exact h (keysOf g) TJ.init (fun k hk => mem_mentioned_keys hk) rfl rfl
      (fun x i hx => by simp [TJ.init, lget] at hx)
  intro ks
  induction ks with
  | nil => intro st _ hres _ _; exact hres
  | cons k rest ihk =>
    intro st hks hres hons hfr
    rw [List.foldl_cons]
    by_cases hki : (lget st.index k).isNone
    · rw [if_pos hki]
      have hkm : k ∈ mentioned g := hks k (List.mem_cons_self _ _)
      have hfuel : unidx g st < tarjanFuel g := by
        unfold tarjanFuel
        have : unidx g st ≤ (mentioned g).length := List.length_filter_le _ _
        omega
      obtain ⟨hares, _, haons, _, hafr⟩ := sc_acyclic hacyc (tarjanFuel g) st k hfuel hkm
        (Option.isNone_iff_eq_none.mp hki)
        (fun x hx => by rw [hons] at hx; exact absurd hx (List.not_mem_nil x))
        hfr
        (fun x hx => by rw [hons] at hx; exact absurd hx (List.not_mem_nil x))
      exact ihk _ (fun x hx => hks x (List.mem_cons_of_mem _ hx))
        (by rw [hares, hres]) (by rw [haons, hons]) hafr
    · rw [if_neg hki]
      exact ihk st (fun x hx => hks x (List.mem_cons_of_mem _ hx)) hres hons hfr

theorem foldr_min_le_init (l : List Nat) (i : Nat) : l.foldr min i ≤ i := by
  induction l with
  | nil => exact Nat.le_refl i
  | cons a as iha => exact le_trans (Nat.min_le_right a _) iha

theorem foldr_min_le_mem {l : List Nat} {i a : Nat} (h : a ∈ l) : l.foldr min i ≤ a := by
  induction l with
  | nil => exact absurd h (List.not_mem_nil a)
  | cons b bs ihb =>
    rcases List.mem_cons.mp h with rfl | h
    · simp only [List.foldr_cons]
      exact min_le_left _ _
    · exact le_trans (Nat.min_le_right b _) (ihb h)

theorem foldr_min_ge {l : List Nat} {i c : Nat} (hi : c ≤ i) (h : ∀ a ∈ l, c ≤ a) :
    c ≤ l.foldr min i := by
  induction l with
  | nil => exact hi
  | cons b bs ihb =>
    exact le_min (h b (List.mem_cons_self _ _))
      (ihb (fun a ha => h a (List.mem_cons_of_mem _ ha)))

theorem le_foldr_max {l : List Nat} {a : Nat} (h : a ∈ l) : a ≤ l.foldr max 0 := by
  induction l with
  | nil => exact absurd h (List.not_mem_nil a)
  | cons b bs ihb =>
    rcases List.mem_cons.mp h with rfl | h
    · simp only [List.foldr_cons]
      exact le_max_left _ _
    · exact le_trans (ihb h) (Nat.le_max_right b _)

theorem LB_le_counter (st : TJ) : LB st ≤ st.counter := foldr_min_le_init _ _

theorem LB_le_mem {st : TJ} {x : String} {i : Nat} (hx : x ∈ st.onstack)
    (hi : lget st.index x = some i) : LB st ≤ i :=
  foldr_min_le_mem (List.mem_filterMap.mpr ⟨x, hx, hi⟩)

theorem mem_filter_notcontains {l P : List String} {x : String} :
    x ∈ l.filter (fun y => !(P.contains y)) ↔ x ∈ l ∧ x ∉ P := by
  simp [List.mem_filter]

theorem popScc_append {A rest : List String} {v : String} (h : v ∉ A) :
    popScc (A ++ v :: rest) v = (A ++ [v], rest) := by
  induction A with
  | nil => simp [popScc]
  | cons a as iha =>
    have hav : a ≠ v := fun he => h (he ▸ List.mem_cons_self _ _)
    rw [List.cons_append]
    unfold popScc
    rw [if_neg (by simp [hav])]
    rw [iha (fun hc => h (List.mem_cons_of_mem _ hc))]
    rfl

theorem completed_push {st : TJ} {v x : String} (hni : lget st.index v = none)
    (h : completedIn st x) : completedIn (tjPush st v) x := by
  obtain ⟨h1, h2⟩ := h
  have hxv : x ≠ v := by
    intro he
    rw [he, hni] at h1
    simp at h1
  constructor
  · show (lget ((v, st.counter) :: st.index) x).isSome = true
    rw [lget_cons, if_neg hxv]
    exact h1
  · intro hc
    rcases List.mem_cons.mp hc with hc | hc
    · exact hxv hc
    · exact h2 hc

theorem GoodRank_push {g : Graph} {st : TJ} {v : String} {rk : String → Nat}
    (hni : lget st.index v = none) (hg : GoodRank g st rk) :
    GoodRank g (tjPush st v) rk := by
  intro u hu w hw hwu
  have hu0 : completedIn st u := by
    obtain ⟨h1, h2⟩ := hu
    have huv : u ≠ v := fun he => h2 (he ▸ List.mem_cons_self _ _)
    constructor
    · show (lget st.index u).isSome = true
      have : lget ((v, st.counter) :: st.index) u = lget st.index u := by
        rw [lget_cons, if_neg huv]
      rw [← this]
      exact h1
    · exact fun hc => h2 (List.mem_cons_of_mem _ hc)
  obtain ⟨hcw, hrk⟩ := hg u hu0 w hw hwu
  exact ⟨completed_push hni hcw, hrk⟩

theorem sc_partb {g : Graph} :
    ∀ (fuel : Nat) (st : TJ) (v : String),
      unidx g st < fuel → v ∈ mentioned g → lget st.index v = none →
      INVb g st →
      INVb g (strongconnect fuel g st v) ∧
      (∀ x : String, completedIn st x → completedIn (strongconnect fuel g st v) x) ∧
      (∃ j, lget (strongconnect fuel g st v).lowlink v = some j ∧ LB st ≤ j ∧
        j ≤ st.counter ∧
        ((completedIn (strongconnect fuel g st v) v ∧
          (strongconnect fuel g st v).stack = st.stack) ∨
         (j < st.counter ∧ ∃ Snew, (strongconnect fuel g st v).stack = Snew ++ st.stack ∧
           v ∈ Snew ∧ ∀ x ∈ Snew, ∃ i,
             lget (strongconnect fuel g st v).index x = some i ∧ st.counter ≤ i))) := by
  intro fuel
  induction fuel with
  | zero => intro st v hf; exact absurd hf (by omega)
  | succ f ih =>
    intro st v hf hv hni hinv
    obtain ⟨hJ1, hJ2, hJ3, hJ4, hJ5, hJ6⟩ := hinv
    rw [strongconnect]
    have hvns : v ∉ st.stack := by
      intro hc
      have := hJ3 v hc
      rw [hni] at this
      simp at this
    have hvno : v ∉ st.onstack := fun hc => hvns ((hJ1 v).mp hc)
    have hp_idx : lget (tjPush st v).index v = some st.counter := by
      unfold tjPush
      simp [lget_cons]
    have hp_low : lget (tjPush st v).lowlink v = some st.counter := by
      unfold tjPush
      simp [lget_cons]
    have hp_old : ∀ x i, lget st.index x = some i → lget (tjPush st v).index x = some i := by
      intro x i hx
      unfold tjPush
      simp only [lget_cons]
      rw [if_neg (fun he => by rw [he, hni] at hx; exact Option.noConfusion hx)]
      exact hx
    have hgrow1 : ∀ x : String, (lget st.index x).isSome →
        (lget (tjPush st v).index x).isSome := by
      intro x hx
      rw [Option.isSome_iff_exists] at hx
      obtain ⟨i, hi⟩ := hx
      rw [hp_old x i hi]
      simp
    have hfuel1 : unidx g (tjPush st v) < f := by
      have h1 : unidx g (tjPush st v) < unidx g st :=
        unidx_lt hgrow1 hv hni (by rw [hp_idx]; simp)
      omega
    have hLBc : LB st ≤ st.counter := LB_le_counter st
    have hpush_inv : INVb g (tjPush st v) := by
      refine ⟨?_, ?_, ?_, ?_, ?_, ?_⟩
      · intro x
        show x ∈ v :: st.onstack ↔ x ∈ v :: st.stack
        simp only [List.mem_cons]
        exact or_congr Iff.rfl (hJ1 x)
      · exact List.nodup_cons.mpr ⟨hvns, hJ2⟩
      · intro x hx
        rcases List.mem_cons.mp hx with rfl | hx
        · rw [hp_idx]; simp
        · exact hgrow1 x (hJ3 x hx)
      · intro x i hx
        show i < st.counter + 1
        by_cases hxv : x = v
        · rw [hxv, hp_idx] at hx
          injection hx with hx
          omega
        · unfold tjPush at hx
          simp only [lget_cons] at hx
          rw [if_neg hxv] at hx
          have := hJ4 x i hx
          omega
      · intro x hx
        by_cases hxv : x = v
        · exact hxv ▸ hv
        · apply hJ5
          unfold tjPush at hx
          simp only [lget_cons] at hx
          rw [if_neg hxv] at hx
          exact hx
      · rcases hJ6 with h | ⟨rk, hrk⟩
        · exact Or.inl h
        · exact Or.inr ⟨rk, GoodRank_push hni hrk⟩
    have hfold : ∀ (ws : List String) (t : TJ) (A : List String) (l : Nat),
        (∀ w ∈ ws, w ∈ glookup g v) →
        INVb g t →
        t.stack = A ++ v :: st.stack →
        (∀ x ∈ A, ∃ i, lget t.index x = some i ∧ st.counter + 1 ≤ i) →
        lget t.index v = some st.counter →
        (∀ x i, lget st.index x = some i → lget t.index x = some i) →
        lget t.lowlink v = some l →
        l ≤ st.counter →
        LB st ≤ l →
        st.counter < t.counter →
        unidx g t < f →
        ∃ A2 l2,
          (ws.foldl (tjStep (strongconnect f g) v) t).stack = A2 ++ v :: st.stack ∧
          (∀ x ∈ A, x ∈ A2) ∧
          (∀ x ∈ A2, ∃ i,
            lget (ws.foldl (tjStep (strongconnect f g) v) t).index x = some i ∧
            st.counter + 1 ≤ i) ∧
          lget (ws.foldl (tjStep (strongconnect f g) v) t).lowlink v = some l2 ∧
          l2 ≤ l ∧
          LB st ≤ l2 ∧
          INVb g (ws.foldl (tjStep (strongconnect f g) v) t) ∧
          lget (ws.foldl (tjStep (strongconnect f g) v) t).index v = some st.counter ∧
          (∀ x i, lget st.index x = some i →
            lget (ws.foldl (tjStep (strongconnect f g) v) t).index x = some i) ∧
          (∀ x : String, completedIn t x →
            completedIn (ws.foldl (tjStep (strongconnect f g) v) t) x) ∧
          (∀ w ∈ ws, w = v ∨
            completedIn (ws.foldl (tjStep (strongconnect f g) v) t) w ∨
            w ∈ A2 ∨ l2 < st.counter) := by
      intro ws
      induction ws with
      | nil =>
        intro t A l _ hinvt hstk hA htiv hstab hlv hlle hLBl _ _
        exact ⟨A, l, hstk, fun x hx => hx, hA, hlv, Nat.le_refl l, hLBl, hinvt, htiv,
          hstab, fun x hx => hx, fun w hw => absurd hw (List.not_mem_nil w)⟩
      | cons w rest ihw =>
        intro t A l hws hinvt hstk hA htiv hstab hlv hlle hLBl hcnt hft
        obtain ⟨hT1, hT2, hT3, hT4, hT5, hT6⟩ := hinvt
        have hw_dep : w ∈ glookup g v := hws w (List.mem_cons_self _ _)
        have hw_ment : w ∈ mentioned g := mem_mentioned_dep hw_dep
        have hws_rest : ∀ x ∈ rest, x ∈ glookup g v :=
          fun x hx => hws x (List.mem_cons_of_mem _ hx)
        rw [List.foldl_cons]
        by_cases hwi : (lget t.index w).isNone
        · -- fresh successor: recursive call, then merge the child lowlink
          have hwn := Option.isNone_iff_eq_none.mp hwi
          obtain ⟨hsinv, hsmono, js, hjs, hjsLB, hjsle, hjscase⟩ :=
            ih t w hft hw_ment hwn ⟨hT1, hT2, hT3, hT4, hT5, hT6⟩
          obtain ⟨_, hsidx, hslow, hsiw, hscnt⟩ := sc_basic f g t w hft hw_ment hwn
          have hsubv : lget (strongconnect f g t w).lowlink v = some l := by
            rw [hslow v (by rw [htiv]; simp)]
            exact hlv
          have hstep : tjStep (strongconnect f g) v t w =
              { strongconnect f g t w with
                lowlink := (v, min l js) :: (strongconnect f g t w).lowlink } := by
            unfold tjStep
            rw [if_pos hwi]
            show { strongconnect f g t w with
                lowlink := (v, min ((lget (strongconnect f g t w).lowlink v).getD 0)
                  ((lget (strongconnect f g t w).lowlink w).getD 0))
                    :: (strongconnect f g t w).lowlink } = _
            rw [hsubv, hjs]
            rfl
          rw [hstep]
          have hLBt : LB st ≤ LB t := by
            apply foldr_min_ge
            · omega
            · intro a ha
              obtain ⟨x, hxon, hxi⟩ := List.mem_filterMap.mp ha
              have hxstk : x ∈ t.stack := (hT1 x).mp hxon
              rw [hstk] at hxstk
              rcases List.mem_append.mp hxstk with hxA | hxr
              · obtain ⟨i, hi, hile⟩ := hA x hxA
                rw [hi] at hxi
                injection hxi with hxi
                omega
              · rcases List.mem_cons.mp hxr with rfl | hxr
                · rw [htiv] at hxi
                  injection hxi with hxi
                  omega
                · have hxs := hJ3 x hxr
                  rw [Option.isSome_iff_exists] at hxs
                  obtain ⟨i0, hi0⟩ := hxs
                  rw [hstab x i0 hi0] at hxi
                  injection hxi with hxi
                  subst hxi
                  exact LB_le_mem ((hJ1 x).mpr hxr) hi0
          have hstab2 : ∀ x i, lget st.index x = some i →
              lget (strongconnect f g t w).index x = some i :=
            fun x i hx => hsidx x i (hstab x i hx)
          have hAstab : ∀ x ∈ A, ∃ i,
              lget (strongconnect f g t w).index x = some i ∧ st.counter + 1 ≤ i := by
            intro x hx
            obtain ⟨i, hi, hile⟩ := hA x hx
            exact ⟨i, hsidx x i hi, hile⟩
          -- the new stack shape: child either restored the stack or left
          -- fresh nodes (including w) on top of it
          rcases hjscase with ⟨hwcomp, hwstk⟩ | ⟨hjslt, Snew, hwstk, hwSnew, hSnewidx⟩
          · obtain ⟨A2, l2, c1, c2, c3, c4, c5, c6, c7, c8, c9, c10, c11⟩ :=
              ihw { strongconnect f g t w with
                      lowlink := (v, min l js) :: (strongconnect f g t w).lowlink }
                A (min l js) hws_rest
                hsinv
                (by show (strongconnect f g t w).stack = A ++ v :: st.stack
                    rw [hwstk, hstk])
                hAstab
                (hsidx v st.counter htiv)
                hstab2
                (by show lget ((v, min l js) :: (strongconnect f g t w).lowlink) v
                      = some (min l js)
                    rw [lget_cons, if_pos rfl])
                (le_trans (Nat.min_le_left _ _) hlle)
                (le_min hLBl (le_trans hLBt hjsLB))
                (by show st.counter < (strongconnect f g t w).counter; omega)
                (by show unidx g (strongconnect f g t w) < f
                    apply lt_of_le_of_lt ?_ hft
                    apply unidx_mono
                    intro x hx
                    rw [Option.isSome_iff_exists] at hx
                    obtain ⟨i, hi⟩ := hx
                    rw [hsidx x i hi]
                    rfl)
            refine ⟨A2, l2, c1, c2, c3, c4, le_trans c5 (Nat.min_le_left _ _), c6, c7,
              c8, c9, ?_, ?_⟩
            · intro x hx
              exact c10 x (hsmono x hx)
            · intro u hu
              rcases List.mem_cons.mp hu with rfl | hu
              · exact Or.inr (Or.inl (c10 u hwcomp))
              · exact c11 u hu
          · obtain ⟨A2, l2, c1, c2, c3, c4, c5, c6, c7, c8, c9, c10, c11⟩ :=
              ihw { strongconnect f g t w with
                      lowlink := (v, min l js) :: (strongconnect f g t w).lowlink }
                (Snew ++ A) (min l js) hws_rest
                hsinv
                (by show (strongconnect f g t w).stack = (Snew ++ A) ++ v :: st.stack
                    rw [hwstk, hstk, List.append_assoc])
                (by intro x hx
                    rcases List.mem_append.mp hx with hx | hx
                    · obtain ⟨i, hi, hile⟩ := hSnewidx x hx
                      exact ⟨i, hi, by omega⟩
                    · exact hAstab x hx)
                (hsidx v st.counter htiv)
                hstab2
                (by show lget ((v, min l js) :: (strongconnect f g t w).lowlink) v
                      = some (min l js)
                    rw [lget_cons, if_pos rfl])
                (le_trans (Nat.min_le_left _ _) hlle)
                (le_min hLBl (le_trans hLBt hjsLB))
                (by show st.counter < (strongconnect f g t w).counter; omega)
                (by show unidx g (strongconnect f g t w) < f
                    apply lt_of_le_of_lt ?_ hft
                    apply unidx_mono
                    intro x hx
                    rw [Option.isSome_iff_exists] at hx
                    obtain ⟨i, hi⟩ := hx
                    rw [hsidx x i hi]
                    rfl)
            refine ⟨A2, l2, c1, ?_, c3, c4, le_trans c5 (Nat.min_le_left _ _), c6, c7,
              c8, c9, ?_, ?_⟩
            · intro x hx
              exact c2 x (List.mem_append.mpr (Or.inr hx))
            · intro x hx
              exact c10 x (hsmono x hx)
            · intro u hu
              rcases List.mem_cons.mp hu with rfl | hu
              · exact Or.inr (Or.inr (Or.inl (c2 u (List.mem_append.mpr (Or.inl hwSnew)))))
              · exact c11 u hu
        · by_cases hwo : w ∈ t.onstack
          · -- successor already on the stack: merge its index into lowlink[v]
            have hwsome : (lget t.index w).isSome := by
              rcases h : lget t.index w with _ | i
              · rw [h] at hwi; simp at hwi
              · simp
            rw [Option.isSome_iff_exists] at hwsome
            obtain ⟨iw, hiw⟩ := hwsome
            have hstep : tjStep (strongconnect f g) v t w =
                { t with lowlink := (v, min l iw) :: t.lowlink } := by
              unfold tjStep
              rw [if_neg hwi, if_pos hwo]
              show { t with
                  lowlink := (v, min ((lget t.lowlink v).getD 0)
                    ((lget t.index w).getD 0)) :: t.lowlink } = _
              rw [hlv, hiw]
              rfl
            rw [hstep]
            -- where does w sit on the stack?
            have hwstk : w ∈ t.stack := (hT1 w).mp hwo
            rw [hstk] at hwstk
            have hkey : w = v ∨ w ∈ A ∨ (iw < st.counter) := by
              rcases List.mem_append.mp hwstk with hxA | hxr
              · exact Or.inr (Or.inl hxA)
              · rcases List.mem_cons.mp hxr with rfl | hxr
                · exact Or.inl rfl
                · have hxs := hJ3 w hxr
                  rw [Option.isSome_iff_exists] at hxs
                  obtain ⟨i0, hi0⟩ := hxs
                  have := hstab w i0 hi0
                  rw [this] at hiw
                  injection hiw with hiw
                  subst hiw
                  exact Or.inr (Or.inr (hJ4 w i0 hi0))
            have hLBiw : LB st ≤ iw := by
              rcases List.mem_append.mp hwstk with hxA | hxr
              · obtain ⟨i, hi, hile⟩ := hA w hxA
                rw [hi] at hiw
                injection hiw with hiw
                omega
              · rcases List.mem_cons.mp hxr with rfl | hxr
                · rw [htiv] at hiw
                  injection hiw with hiw
                  omega
                · have hxs := hJ3 w hxr
                  rw [Option.isSome_iff_exists] at hxs
                  obtain ⟨i0, hi0⟩ := hxs
                  rw [hstab w i0 hi0] at hiw
                  injection hiw with hiw
                  subst hiw
                  exact LB_le_mem ((hJ1 w).mpr hxr) hi0
            obtain ⟨A2, l2, c1, c2, c3, c4, c5, c6, c7, c8, c9, c10, c11⟩ :=
              ihw { t with lowlink := (v, min l iw) :: t.lowlink } A (min l iw) hws_rest
                ⟨hT1, hT2, hT3, hT4, hT5, hT6⟩
                hstk hA htiv hstab
                (by show lget ((v, min l iw) :: t.lowlink) v = some (min l iw)
                    rw [lget_cons, if_pos rfl])
                (le_trans (Nat.min_le_left _ _) hlle)
                (le_min hLBl hLBiw)
                hcnt hft
            refine ⟨A2, l2, c1, c2, c3, c4, le_trans c5 (Nat.min_le_left _ _), c6, c7,
              c8, c9, c10, ?_⟩
            intro u hu
            rcases List.mem_cons.mp hu with rfl | hu
            · rcases hkey with h | h | h
              · exact Or.inl h
              · exact Or.inr (Or.inr (Or.inl (c2 u h)))
              · refine Or.inr (Or.inr (Or.inr ?_))
                have : l2 ≤ min l iw := c5
                have : min l iw ≤ iw := Nat.min_le_right _ _
                omega
            · exact c11 u hu
          · -- successor already completed: nothing changes
            have hstep : tjStep (strongconnect f g) v t w = t := by
              unfold tjStep
              rw [if_neg hwi, if_neg hwo]
            rw [hstep]
            have hwsome : (lget t.index w).isSome := by
              rcases h : lget t.index w with _ | i
              · rw [h] at hwi; simp at hwi
              · simp
            obtain ⟨A2, l2, c1, c2, c3, c4, c5, c6, c7, c8, c9, c10, c11⟩ :=
              ihw t A l hws_rest ⟨hT1, hT2, hT3, hT4, hT5, hT6⟩ hstk hA htiv hstab
                hlv hlle hLBl hcnt hft
            refine ⟨A2, l2, c1, c2, c3, c4, c5, c6, c7, c8, c9, c10, ?_⟩
            intro u hu
            rcases List.mem_cons.mp hu with rfl | hu
            · exact Or.inr (Or.inl (c10 u ⟨hwsome, hwo⟩))
            · exact c11 u hu
    obtain ⟨A2, l2, hc_stk, _, hc_A2, hc_low, hc_lle, hc_LB, hc_inv, hc_idxv, hc_stab,
        hc_mono, hc_res⟩ :=
      hfold (glookup g v) (tjPush st v) [] st.counter (fun w hw => hw) hpush_inv
        rfl (fun x hx => absurd hx (List.not_mem_nil x)) hp_idx hp_old hp_low
        (Nat.le_refl _) hLBc (Nat.lt_succ_self _) hfuel1
    set st2 := (glookup g v).foldl (tjStep (strongconnect f g) v) (tjPush st v) with hst2
    obtain ⟨hK1, hK2, hK3, hK4, hK5, hK6⟩ := hc_inv
    have hvnA2 : v ∉ A2 := by
      intro hc
      obtain ⟨i, hi, hile⟩ := hc_A2 v hc
      rw [hc_idxv] at hi
      injection hi with hi
      omega
    have hstk_split : st2.stack = (A2 ++ [v]) ++ st.stack := by
      rw [hc_stk, List.append_assoc]
      rfl
    have hmono_all : ∀ x : String, completedIn st x → completedIn st2 x :=
      fun x hx => hc_mono x (completed_push hni hx)
    have hvonstack2 : v ∈ st2.onstack := by
      apply (hK1 v).mpr
      rw [hc_stk]
      exact List.mem_append.mpr (Or.inr (List.mem_cons_self _ _))
    by_cases hl2 : l2 = st.counter
    · -- root: lowlink[v] = index[v], the scc above v is popped
      have hguard : (lget st2.lowlink v == lget st2.index v) = true := by
        rw [hc_low, hc_idxv, hl2]
        simp
      have hpop : popScc st2.stack v = (A2 ++ [v], st.stack) := by
        rw [hc_stk]
        exact popScc_append hvnA2
      have hpopeq : tjPop st2 v =
          { st2 with
            stack := st.stack
            onstack := st2.onstack.filter (fun x => !((A2 ++ [v]).contains x))
            result := if (A2 ++ [v]).length > 1 then st2.result ++ [A2 ++ [v]]
              else st2.result } := by
        unfold tjPop
        rw [if_pos hguard, hpop]
      rw [hpopeq]
      have honstack2 : ∀ x : String,
          (x ∈ st2.onstack.filter (fun y => !((A2 ++ [v]).contains y))) ↔
          (x ∈ st2.onstack ∧ x ∉ A2 ++ [v]) :=
        fun x => mem_filter_notcontains
      have hdisj : ∀ x ∈ st.stack, x ∉ A2 ++ [v] := by
        have hnd : ((A2 ++ [v]) ++ st.stack).Nodup := by rw [← hstk_split]; exact hK2
        intro x hx hc
        exact (List.disjoint_of_nodup_append hnd) hc hx
      have hI1' : ∀ x : String,
          (x ∈ st2.onstack.filter (fun y => !((A2 ++ [v]).contains y))) ↔
          x ∈ st.stack := by
        intro x
        rw [honstack2 x]
        constructor
        · rintro ⟨hx1, hx2⟩
          have := (hK1 x).mp hx1
          rw [hstk_split] at this
          rcases List.mem_append.mp this with h | h
          · exact absurd h hx2
          · exact h
        · intro hx
          refine ⟨(hK1 x).mpr ?_, hdisj x hx⟩
          rw [hstk_split]
          exact List.mem_append.mpr (Or.inr hx)
      have hcompv : completedIn
          { st2 with
            stack := st.stack
            onstack := st2.onstack.filter (fun x => !((A2 ++ [v]).contains x))
            result := if (A2 ++ [v]).length > 1 then st2.result ++ [A2 ++ [v]]
              else st2.result } v := by
        constructor
        · show (lget st2.index v).isSome = true
          rw [hc_idxv]
          simp
        · show v ∉ st2.onstack.filter (fun y => !((A2 ++ [v]).contains y))
          intro hc
          exact ((honstack2 v).mp hc).2
            (List.mem_append.mpr (Or.inr (List.mem_cons_self _ _)))
      have hmono2 : ∀ x : String, completedIn st2 x → completedIn
          { st2 with
            stack := st.stack
            onstack := st2.onstack.filter (fun x => !((A2 ++ [v]).contains x))
            result := if (A2 ++ [v]).length > 1 then st2.result ++ [A2 ++ [v]]
              else st2.result } x := by
        intro x hx
        obtain ⟨hx1, hx2⟩ := hx
        refine ⟨hx1, ?_⟩
        show x ∉ st2.onstack.filter (fun y => !((A2 ++ [v]).contains y))
        intro hc
        exact hx2 ((honstack2 x).mp hc).1
      refine ⟨⟨hI1', hJ2, ?_, hK4, hK5, ?_⟩,
        fun x hx => hmono2 x (hmono_all x hx),
        l2, hc_low, hc_LB, hc_lle, Or.inl ⟨hcompv, rfl⟩⟩
      · intro x hx
        have hx2 : x ∈ st.stack := hx
        have := hJ3 x hx2
        rw [Option.isSome_iff_exists] at this
        obtain ⟨i, hi⟩ := this
        show (lget st2.index x).isSome = true
        rw [hc_stab x i hi]
        simp
      · -- the Good rank survives the pop
        by_cases hA2nil : A2 = []
        · -- singleton pop: v joins the completed set with a maximal rank
          have hlen : ¬ ((A2 ++ [v]).length > 1) := by
            rw [hA2nil]
            simp
          show (if (A2 ++ [v]).length > 1 then st2.result ++ [A2 ++ [v]]
            else st2.result) ≠ [] ∨ _
          rw [if_neg hlen]
          rcases hK6 with h | ⟨rk, hrk⟩
          · exact Or.inl h
          · refine Or.inr ⟨fun x => if x = v
              then (((mentioned g).map rk).foldr max 0) + 1 else rk x, ?_⟩
            intro u hu w hw hwu
            have hvnotc2 : ¬ completedIn st2 v := fun hc => hc.2 hvonstack2
            by_cases huv : u = v
            · subst huv
              rcases hc_res w hw with h | h | h | h
              · exact absurd h hwu
              · have hwnv : w ≠ u := by
                  intro he
                  exact hvnotc2 (he ▸ h)
                refine ⟨hmono2 w h, ?_⟩
                show (if w = u then _ else rk w) < if u = u then _ else rk u
                rw [if_neg hwnv, if_pos rfl]
                have hwment : w ∈ mentioned g := hK5 w h.1
                have : rk w ≤ ((mentioned g).map rk).foldr max 0 :=
                  le_foldr_max (List.mem_map_of_mem rk hwment)
                omega
              · rw [hA2nil] at h
                exact absurd h (List.not_mem_nil w)
              · omega
            · have hu2 : completedIn st2 u := by
                obtain ⟨hu1, hu2⟩ := hu
                refine ⟨hu1, ?_⟩
                intro hc
                apply hu2
                show u ∈ st2.onstack.filter
                  (fun y => !((A2 ++ [v]).contains y))
                apply (honstack2 u).mpr
                refine ⟨hc, ?_⟩
                intro hc2
                rcases List.mem_append.mp hc2 with h | h
                · rw [hA2nil] at h
                  exact absurd h (List.not_mem_nil u)
                · exact huv (List.mem_singleton.mp h)
              obtain ⟨hcw, hrklt⟩ := hrk u hu2 w hw hwu
              have hwnv : w ≠ v := by
                intro he
                exact hvnotc2 (he ▸ hcw)
              refine ⟨hmono2 w hcw, ?_⟩
              show (if w = v then _ else rk w) < if u = v then _ else rk u
              rw [if_neg hwnv, if_neg huv]
              exact hrklt
        · -- a real scc is recorded: the result is nonempty from now on
          have hlen : (A2 ++ [v]).length > 1 := by
            rcases A2 with _ | ⟨a, as⟩
            · exact absurd rfl hA2nil
            · simp
          show (if (A2 ++ [v]).length > 1 then st2.result ++ [A2 ++ [v]]
            else st2.result) ≠ [] ∨ _
          rw [if_pos hlen]
          apply Or.inl
          intro hc
          have := List.append_eq_nil.mp hc
          exact List.noConfusion this.2
    · -- not a root: v stays on the stack, lowlink[v] points strictly below
      have hguard : ¬ ((lget st2.lowlink v == lget st2.index v) = true) := by
        intro hc
        rw [hc_low, hc_idxv] at hc
        simp at hc
        exact hl2 hc
      unfold tjPop
      rw [if_neg hguard]
      refine ⟨⟨hK1, hK2, hK3, hK4, hK5, hK6⟩, hmono_all, l2, hc_low, hc_LB, hc_lle,
        Or.inr ⟨lt_of_le_of_ne hc_lle hl2, A2 ++ [v], hstk_split, ?_, ?_⟩⟩
      · exact List.mem_append.mpr (Or.inr (List.mem_cons_self _ _))
      · intro x hx
        rcases List.mem_append.mp hx with hx | hx
        · obtain ⟨i, hi, hile⟩ := hc_A2 x hx
          exact ⟨i, hi, by omega⟩
        · rw [List.mem_singleton.mp hx]
          exact ⟨st.counter, hc_idxv, Nat.le_refl _⟩

theorem pathP_src_key {g : Graph} {a b : String} (hp : PathP g a b) : a ∈ keysOf g := by
  cases hp with
  | single he => exact edge_key he
  | cons he _ => exact edge_key he

theorem good_path {g : Graph} {st : TJ} {rk : String → Nat}
    (hg : GoodRank g st rk) {a b : String} (hp : PathP g a b) :
    completedIn st a → b = a ∨ (completedIn st b ∧ rk b < rk a) := by
  induction hp with
  | single he =>
    intro hca
    rename_i a0 b0
    by_cases hba : b0 = a0
    · exact Or.inl hba
    · exact Or.inr (hg _ hca _ he hba)
  | cons he hp ihp =>
    intro hca
    rename_i a0 w b0
    by_cases hwa : w = a0
    · subst hwa
      exact ihp hca
    · obtain ⟨hcw, hlt⟩ := hg a0 hca w he hwa
      rcases ihp hcw with h | ⟨hcb, hlt2⟩
      · subst h
        exact Or.inr ⟨hcw, hlt⟩
      · exact Or.inr ⟨hcb, lt_trans hlt2 hlt⟩

theorem detect_loop_partb {g : Graph} :
    ∀ (ks : List String) (st : TJ),
      (∀ k ∈ ks, k ∈ mentioned g) →
      st.stack = [] → st.onstack = [] →
      (∀ x i, lget st.index x = some i → i < st.counter) →
      (∀ x : String, (lget st.index x).isSome → x ∈ mentioned g) →
      (st.result ≠ [] ∨ ∃ rk : String → Nat, GoodRank g st rk) →
      (ks.foldl (fun st v => if (lget st.index v).isNone
          then strongconnect (tarjanFuel g) g st v else st) st).stack = [] ∧
      (ks.foldl (fun st v => if (lget st.index v).isNone
          then strongconnect (tarjanFuel g) g st v else st) st).onstack = [] ∧
      ((ks.foldl (fun st v => if (lget st.index v).isNone
          then strongconnect (tarjanFuel g) g st v else st) st).result ≠ [] ∨
        ∃ rk : String → Nat, GoodRank g (ks.foldl (fun st v => if (lget st.index v).isNone
          then strongconnect (tarjanFuel g) g st v else st) st) rk) ∧
      (∀ k ∈ ks, (lget (ks.foldl (fun st v => if (lget st.index v).isNone
          then strongconnect (tarjanFuel g) g st v else st) st).index k).isSome) ∧
      (∀ x : String, (lget st.index x).isSome →
        (lget (ks.foldl (fun st v => if (lget st.index v).isNone
          then strongconnect (tarjanFuel g) g st v else st) st).index x).isSome) := by
  intro ks
  induction ks with
  | nil =>
    intro st _ hstk hons hfr hment hgood
    exact ⟨hstk, hons, hgood, fun k hk => absurd hk (List.not_mem_nil k),
      fun x hx => hx⟩
  | cons k rest ihk =>
    intro st hks hstk hons hfr hment hgood
    rw [List.foldl_cons]
    have hrest : ∀ x ∈ rest, x ∈ mentioned g :=
      fun x hx => hks x (List.mem_cons_of_mem _ hx)
    by_cases hki : (lget st.index k).isNone
    · rw [if_pos hki]
      have hkn := Option.isNone_iff_eq_none.mp hki
      have hkm : k ∈ mentioned g := hks k (List.mem_cons_self _ _)
      have hfuel : unidx g st < tarjanFuel g := by
        unfold tarjanFuel
        have : unidx g st ≤ (mentioned g).length := List.length_filter_le _ _
        omega
      have hinv : INVb g st := by
        refine ⟨?_, ?_, ?_, hfr, hment, hgood⟩
        · intro x
          rw [hstk, hons]
        · rw [hstk]
          exact List.nodup_nil
        · intro x hx
          rw [hstk] at hx
          exact absurd hx (List.not_mem_nil x)
      obtain ⟨hinv2, _, j, hj, hjLB, hjle, hjcase⟩ :=
        sc_partb (tarjanFuel g) st k hfuel hkm hkn hinv
      obtain ⟨hL1, hL2, hL3, hL4, hL5, hL6⟩ := hinv2
      have hLBst : LB st = st.counter := by
        unfold LB
        rw [hons]
        rfl
      rcases hjcase with ⟨hcomp, hstk2⟩ | ⟨hjlt, _⟩
      · obtain ⟨_, hsidx, _, hsiv, _⟩ := sc_basic (tarjanFuel g) g st k hfuel hkm hkn
        have hstk2e : (strongconnect (tarjanFuel g) g st k).stack = [] := by
          rw [hstk2, hstk]
        have hons2 : (strongconnect (tarjanFuel g) g st k).onstack = [] := by
          apply List.eq_nil_iff_forall_not_mem.mpr
          intro x hx
          have := (hL1 x).mp hx
          rw [hstk2e] at this
          exact absurd this (List.not_mem_nil x)
        obtain ⟨d1, d2, d3, d4, d5⟩ :=
          ihk (strongconnect (tarjanFuel g) g st k) hrest hstk2e hons2 hL4 hL5 hL6
        refine ⟨d1, d2, d3, ?_, ?_⟩
        · intro x hx
          rcases List.mem_cons.mp hx with rfl | hx
          · apply d5
            rw [hsiv]
            rfl
          · exact d4 x hx
        · intro x hx
          apply d5
          rw [Option.isSome_iff_exists] at hx
          obtain ⟨i, hi⟩ := hx
          rw [hsidx x i hi]
          rfl
      · rw [hLBst] at hjLB
        omega
    · rw [if_neg hki]
      have hksome : (lget st.index k).isSome := by
        rcases h : lget st.index k with _ | i
        · rw [h] at hki; simp at hki
        · simp
      obtain ⟨d1, d2, d3, d4, d5⟩ := ihk st hrest hstk hons hfr hment hgood
      refine ⟨d1, d2, d3, ?_, d5⟩
      intro x hx
      rcases List.mem_cons.mp hx with rfl | hx
      · exact d5 x hksome
      · exact d4 x hx

theorem detect_cycles_two_cycle {g : Graph} {u v : String} (huv : u ≠ v)
    (hp1 : PathP g u v) (hp2 : PathP g v u) : detect_cycles g ≠ [] := by
  intro hres
  unfold detect_cycles at hres
  obtain ⟨hstk, hons, hgood, hkeys, _⟩ :=
    detect_loop_partb (keysOf g) TJ.init (fun k hk => mem_mentioned_keys hk) rfl rfl
      (fun x i hx => by simp [TJ.init, lget] at hx)
      (fun x hx => by simp [TJ.init, lget] at hx)
      (Or.inr ⟨fun _ => 0, fun x hcx w hw hwx => by
        exfalso
        obtain ⟨h1, _⟩ := hcx
        simp [TJ.init, lget] at h1⟩)
  rcases hgood with h | ⟨rk, hrk⟩
  · exact h hres
  · have hcu : completedIn ((keysOf g).foldl (fun st v => if (lget st.index v).isNone
        then strongconnect (tarjanFuel g) g st v else st) TJ.init) u := by
      refine ⟨hkeys u (pathP_src_key hp1), ?_⟩
      rw [hons]
      exact List.not_mem_nil u
    rcases good_path hrk hp1 hcu with h | ⟨hcv, hlt1⟩
    · exact huv h.symm
    · rcases good_path hrk hp2 hcv with h | ⟨_, hlt2⟩
      · exact huv h
      · omega

/-- C3 (amended): `detect_cycles` returns the empty list for every acyclic
graph; and for every graph containing a directed cycle through at least two
distinct nodes (two distinct mutually reachable nodes), it returns at least
one strongly connected component.  (A self-loop, a directed cycle of length
one, is not reported: see the counterexample.) -/
theorem C3_amended (g : Graph) :
    (Acyclic g → detect_cycles g = []) ∧
    ((∃ u v : String, u ≠ v ∧ PathP g u v ∧ PathP g v u) → detect_cycles g ≠ []) :=
  ⟨fun h => detect_cycles_acyclic h,
   fun ⟨_, _, huv, h1, h2⟩ => detect_cycles_two_cycle huv h1 h2⟩

/-- Witness for C3: the acyclic one-edge graph `{A: {B}}` yields no cycle,
and the two-node cycle `{A: {B}, B: {A}}` yields a nonempty report. -/
theorem C3_amended_witness :
    detect_cycles [("A", ["B"])] = [] ∧
    detect_cycles [("A", ["B"]), ("B", ["A"])] ≠ [] :=
  ⟨(C3_amended [("A", ["B"])]).1
      (acyclic_of_rank _ (fun s => if s = "A" then 1 else 0) (by decide)),
   (C3_amended [("A", ["B"]), ("B", ["A"])]).2
      ⟨"A", "B", by decide, PathP.single (by decide), PathP.single (by decide)⟩⟩
